import Mathlib

/-!
Verification of the AdaRRT planner (src/code_m1_m2_m3/adarrt.py).

The development is a shallow embedding of the planner:

* Joint-configuration states are vectors `Fin n → ℝ`; `np.linalg.norm` is
  `enorm` / `edist` (the Euclidean norm, a square root of a sum of squares).
* A numpy array can become all-NaN inside `_extend_sample` (division of the
  zero vector by its zero norm).  A possibly-NaN state is `FState n :=
  Option (Fin n → ℝ)`, with `none` standing for the all-NaN array; every
  IEEE comparison against NaN is false, which the embedding mirrors in
  `oltB`, `checkForCompletion` and friends.
* The tree of `AdaRRT.Node` objects is the rose tree `Node n`; a node is
  addressed by the list of child indices from the root (`nodeAt`), child
  insertion (`Node.add_child`, which appends) is `addChildAt`, the
  breadth-first iterator `Node.__iter__` is `bfsPairs`, and Python's
  `min(..., key=...)` (keep the first strictly smaller element) is
  `firstMinBy`.
* `build` consumes randomness only through the sampled configurations, so
  the random source is an injected stream `s : ℕ → Fin n → ℝ` giving the
  sample drawn in each iteration (whether by `_get_random_sample` or by
  `_get_random_sample_near_goal`); the claims quantify over every stream.
  `buildAux` additionally returns the final tree so that invariants of the
  tree reachable by planner operations can be stated.
* `__init__` performs no validation; its observable behaviour (field
  assignment and the `x or default` substitution of the class-level joint
  limits, whose truth-value test on a numpy array of more than one element
  raises `ValueError`) is modelled separately and computably over `ℚ` by
  `adaRRT_init`.
-/

namespace AdaRRT

/-! ### The constructor model: `AdaRRT.__init__` (lines 54-87)

`joint_lower_limits or AdaRRT.joint_lower_limits` evaluates the truth value
of the argument.  `PyLimits` distinguishes the Python values that can be
passed: `None`, a Python list, or a numpy array; `pyTruthy` is Python's
truth-value test on them (`ValueError`, modelled as `Except.error ()`, for a
numpy array of more than one element). -/

inductive PyLimits where
  | pynone : PyLimits
  | pylist : List ℚ → PyLimits
  | nparray : List ℚ → PyLimits
deriving DecidableEq, Repr

/-- Class attribute `AdaRRT.joint_lower_limits` (line 14). -/
def defaultLowerLimits : List ℚ := [-3.14, 1.57, 0.33, -3.14, 0, 0]

/-- Class attribute `AdaRRT.joint_upper_limits` (line 15). -/
def defaultUpperLimits : List ℚ := [3.14, 5.00, 5.00, 3.14, 3.14, 3.14]

/-- Python truth-value test of a limits argument.  `None` and `[]` are
falsy; a nonempty Python list is truthy; a numpy array is falsy when empty,
has the truth value of its element when it has exactly one, and raises
`ValueError` (modelled `Except.error ()`) otherwise. -/
def pyTruthy : PyLimits → Except Unit Bool
  | .pynone => .ok false
  | .pylist xs => .ok (decide (xs ≠ []))
  | .nparray [] => .ok false
  | .nparray [x] => .ok (decide (x ≠ 0))
  | .nparray (_ :: _ :: _) => .error ()

/-- The underlying sequence of a limits argument (what `x or d` yields when
`x` is truthy). -/
def limitsValue : PyLimits → List ℚ
  | .pynone => []
  | .pylist xs => xs
  | .nparray xs => xs

/-- Model of `x or d` as evaluated on lines 82-83. -/
def pyOr (arg : PyLimits) (dflt : List ℚ) : Except Unit (List ℚ) := do
  let b ← pyTruthy arg
  pure (if b then limitsValue arg else dflt)

/-- The fields `__init__` assigns to the planner object.  The collision
constraint is kept only as presence (`ada` and the constraint object are
external collaborators). -/
structure AdaRRTInit where
  startState : List ℚ
  goalState : List ℚ
  jointLowerLimits : List ℚ
  jointUpperLimits : List ℚ
  hasCollisionConstraint : Bool
  stepSize : ℚ
  goalPrecision : ℚ
  maxIter : ℤ
deriving DecidableEq, Repr

/-- Model of `AdaRRT.__init__` (lines 54-87): it only wraps start and goal
into root nodes and assigns the fields; the sole failure point is the
truth-value test inside `x or default` on lines 82-83.  No dimension, sign
or iteration-count validation is performed. -/
def adaRRT_init (startState goalState : List ℚ)
    (jointLowerLimits jointUpperLimits : PyLimits)
    (hasCollisionConstraint : Bool)
    (stepSize goalPrecision : ℚ) (maxIter : ℤ) :
    Except Unit AdaRRTInit :=
  match pyOr jointLowerLimits defaultLowerLimits with
  | .error e => .error e
  | .ok lo =>
    match pyOr jointUpperLimits defaultUpperLimits with
    | .error e => .error e
    | .ok hi =>
      .ok { startState := startState
            goalState := goalState
            jointLowerLimits := lo
            jointUpperLimits := hi
            hasCollisionConstraint := hasCollisionConstraint
            stepSize := stepSize
            goalPrecision := goalPrecision
            maxIter := maxIter }

/-- The planner object produced by a fully defaulted construction from
empty start and goal arrays. -/
def initDefaultsResult : AdaRRTInit :=
  { startState := []
    goalState := []
    jointLowerLimits := defaultLowerLimits
    jointUpperLimits := defaultUpperLimits
    hasCollisionConstraint := false
    stepSize := 1
    goalPrecision := 1
    maxIter := 1 }

/-! ### The geometric model -/

noncomputable section
open Classical

/-- Model of `np.linalg.norm x`: the Euclidean norm of a joint-configuration
vector. -/
def enorm {n : ℕ} (x : Fin n → ℝ) : ℝ := Real.sqrt (∑ i, x i ^ 2)

/-- Model of `np.linalg.norm (x - y)`: the Euclidean distance between two
configurations. -/
def edist {n : ℕ} (x y : Fin n → ℝ) : ℝ := enorm (x - y)

/-- A numpy state array: either an ordinary real vector or the all-NaN array
(`none`) produced by the unguarded `0/0` in `_extend_sample`. -/
def FState (n : ℕ) : Type := Option (Fin n → ℝ)

/-- The tree of `AdaRRT.Node` objects (lines 17-52): a state and the owned,
insertion-ordered list of children.  Parent references are implicit: a node
is addressed by its list of child indices from the root. -/
inductive Node (n : ℕ) : Type where
  | mk : FState n → List (Node n) → Node n

/-- Accessor for `Node.state`. -/
def Node.state {n : ℕ} : Node n → FState n
  | .mk s _ => s

/-- Accessor for `Node.children`. -/
def Node.children {n : ℕ} : Node n → List (Node n)
  | .mk _ cs => cs

/-- Replace the element at an index of a list (no-op when out of range). -/
def modifyIdx {α : Type _} (f : α → α) : ℕ → List α → List α
  | _, [] => []
  | 0, a :: l => f a :: l
  | i + 1, a :: l => a :: modifyIdx f i l

/-- Follow a list of child indices down from a node. -/
def nodeAt {n : ℕ} : List ℕ → Node n → Option (Node n)
  | [], t => some t
  | i :: q, .mk _ cs => (cs.get? i).bind (nodeAt q)

/-- Model of `Node.add_child` applied to the node at the given address: a
new childless node with the given state is appended to that node's
children. -/
def addChildAt {n : ℕ} : List ℕ → FState n → Node n → Node n
  | [], st, .mk s cs => .mk s (cs ++ [.mk st []])
  | i :: q, st, .mk s cs => .mk s (modifyIdx (addChildAt q st) i cs)

/-- States collected by the `while node is not None` loop of
`_trace_path_from_start` (lines 189-192): the addressed node first, its
ancestors after, the root last. -/
def walkUp {n : ℕ} : List ℕ → Node n → List (FState n)
  | [], t => [t.state]
  | i :: q, .mk s cs =>
    (match cs.get? i with
     | some c => walkUp q c
     | none => []) ++ [s]

/-- Model of `AdaRRT._trace_path_from_start` (lines 176-193): the collected
parent walk, reversed (`path[::-1]`). -/
def tracePathFromStart {n : ℕ} (q : List ℕ) (t : Node n) : List (FState n) :=
  (walkUp q t).reverse

/-- The same sequence of states read from the root down; equal to
`tracePathFromStart` (proved below) and easier to reason about. -/
def statesDown {n : ℕ} : List ℕ → Node n → List (FState n)
  | [], t => [t.state]
  | i :: q, .mk s cs =>
    s :: (match cs.get? i with
          | some c => statesDown q c
          | none => [])

/-- Addresses paired with nodes for a list of children, starting at a given
child index. -/
def childPairs {n : ℕ} (q : List ℕ) : ℕ → List (Node n) → List (List ℕ × Node n)
  | _, [] => []
  | i, c :: cs => (q ++ [i], c) :: childPairs q (i + 1) cs

/-- Termination measure for the breadth-first traversal: total size of the
trees still on the worklist. -/
def pairsMeasure {n : ℕ} (l : List (List ℕ × Node n)) : ℕ :=
  (l.map fun pr => sizeOf pr.2).sum

theorem pairsMeasure_nil {n : ℕ} : pairsMeasure ([] : List (List ℕ × Node n)) = 0 := rfl

theorem pairsMeasure_cons {n : ℕ} (pr : List ℕ × Node n) (l : List (List ℕ × Node n)) :
    pairsMeasure (pr :: l) = sizeOf pr.2 + pairsMeasure l := by
  simp [pairsMeasure]

theorem pairsMeasure_append {n : ℕ} (l1 l2 : List (List ℕ × Node n)) :
    pairsMeasure (l1 ++ l2) = pairsMeasure l1 + pairsMeasure l2 := by
  simp [pairsMeasure]

theorem sum_map_sizeOf_le {n : ℕ} (cs : List (Node n)) :
    (cs.map fun c => sizeOf c).sum ≤ sizeOf cs := by
  induction cs with
  | nil => simp
  | cons c cs ih =>
    simp only [List.map_cons, List.sum_cons, List.cons.sizeOf_spec]
    omega

theorem pairsMeasure_childPairs {n : ℕ} (q : List ℕ) :
    ∀ (j : ℕ) (cs : List (Node n)),
      pairsMeasure (childPairs q j cs) = (cs.map fun c => sizeOf c).sum := by
  intro j cs
  induction cs generalizing j with
  | nil => simp [childPairs, pairsMeasure]
  | cons c cs ih =>
    simp only [childPairs, pairsMeasure_cons, List.map_cons, List.sum_cons, ih]

/-- Model of the breadth-first iterator `Node.__iter__` (lines 30-38),
instrumented with node addresses: pop the front of the worklist, yield it,
push its children at the back. -/
def bfsAux {n : ℕ} : List (List ℕ × Node n) → List (List ℕ × Node n)
  | [] => []
  | (q, .mk s cs) :: rest =>
    (q, .mk s cs) :: bfsAux (rest ++ childPairs q 0 cs)
termination_by l => pairsMeasure l
decreasing_by
  simp only [pairsMeasure_append, pairsMeasure_cons, pairsMeasure_childPairs]
  have h1 := sum_map_sizeOf_le cs
  have h2 : sizeOf cs < sizeOf (Node.mk s cs) := by
    simp only [Node.mk.sizeOf_spec]
    omega
  omega

/-- Breadth-first enumeration of a tree, with addresses: the order in which
`min(self.start, key=...)` sees the nodes. -/
def bfsPairs {n : ℕ} (t : Node n) : List (List ℕ × Node n) := bfsAux [([], t)]

/-- Python `<` on two distance keys, with IEEE NaN semantics: any comparison
involving NaN (`none`) is false. -/
def oltB : Option ℝ → Option ℝ → Bool
  | some x, some y => decide (x < y)
  | _, _ => false

/-- The key `np.linalg.norm (node.state - sample)` of line 143; NaN
(`none`) when the node state is the all-NaN array. -/
def distKey {n : ℕ} (sample : Fin n → ℝ) : FState n → Option ℝ
  | some v => some (edist v sample)
  | none => none

/-- Python's `min(iterable, key=...)`: fold keeping the current best,
replacing it only when the candidate's key is strictly smaller, so the first
minimum wins. -/
def firstMinBy {α : Type _} (key : α → Option ℝ) : α → List α → α
  | best, [] => best
  | best, x :: xs => firstMinBy key (if oltB (key x) (key best) then x else best) xs

/-- Model of `AdaRRT._get_nearest_neighbor` (lines 134-143):
`min(self.start, key=lambda node: norm(node.state - sample))` over the
breadth-first enumeration of the tree rooted at the start node (the
standalone goal node is not part of it). -/
def nearestNeighbor {n : ℕ} (t : Node n) (sample : Fin n → ℝ) : List ℕ × Node n :=
  match bfsPairs t with
  | [] => ([], t)
  | b :: rest => firstMinBy (fun pr => distKey sample pr.2.state) b rest

/-- The candidate state computed by `AdaRRT._extend_sample` (lines 157-159):
`neighbor.state + (direction / norm(direction)) * step_size`.  When the
sample coincides with the neighbor's state the direction is the zero vector
and numpy's `0.0 / 0.0` yields the all-NaN array (`none`); when the neighbor
state is already NaN the arithmetic propagates NaN. -/
def extendState {n : ℕ} (sample : Fin n → ℝ) (nst : FState n) (stepSize : ℝ) : FState n :=
  match nst with
  | none => none
  | some v =>
    if sample = v then none
    else some (v + stepSize • ((enorm (sample - v))⁻¹ • (sample - v)))

/-- Model of `AdaRRT._check_for_collision` (lines 195-205): `False` when no
collision constraint is configured, otherwise the negation of
`is_satisfied` on the queried state (the `ada` state space and skeleton
arguments are external and constant). -/
def checkForCollision {n : ℕ} (oracle : Option (FState n → Bool)) (sample : FState n) : Bool :=
  match oracle with
  | none => false
  | some isSatisfied => !(isSatisfied sample)

/-- Model of `AdaRRT._check_for_completion` (lines 165-173):
`norm(node.state - goal) < goal_precision`; false on the all-NaN state since
every IEEE comparison with NaN is false. -/
def checkForCompletion {n : ℕ} (goal : Fin n → ℝ) (goalPrecision : ℝ) : FState n → Bool
  | some v => decide (edist v goal < goalPrecision)
  | none => false

/-- The planner configuration used by `build`: the fields of the constructed
planner that the loop reads.  The joint limits are consumed only by the
samplers, which are abstracted into the injected sample stream. -/
structure AdaRRTParams (n : ℕ) where
  start : Fin n → ℝ
  goal : Fin n → ℝ
  oracle : Option (FState n → Bool)
  stepSize : ℝ
  goalPrecision : ℝ
  maxIter : ℕ

/-- Model of the loop of `AdaRRT.build` (lines 106-119), one iteration per
unit of fuel, parametrized by the stream of sampled configurations (`s k` is
the sample of iteration `k`, from either sampler).  Returns the result
together with the tree, so that invariants of the reachable trees can be
stated; `build` projects the result. -/
def buildAux {n : ℕ} (p : AdaRRTParams n) (s : ℕ → Fin n → ℝ) :
    ℕ → ℕ → Node n → Option (List (FState n)) × Node n
  | 0, _, t => (none, t)
  | fuel + 1, k, t =>
    let nb := nearestNeighbor t (s k)
    let cand := extendState (s k) nb.2.state p.stepSize
    if checkForCollision p.oracle cand then
      buildAux p s fuel (k + 1) t
    else
      let t2 := addChildAt nb.1 cand t
      if checkForCompletion p.goal p.goalPrecision cand then
        (some (tracePathFromStart (nb.1 ++ [nb.2.children.length]) t2), t2)
      else
        buildAux p s fuel (k + 1) t2

/-- Model of `AdaRRT.build` (lines 89-119): run at most `max_iter`
iterations from the tree containing only the root; `some path` on success,
`none` for the explicit "no path found" outcome. -/
def build {n : ℕ} (p : AdaRRTParams n) (s : ℕ → Fin n → ℝ) : Option (List (FState n)) :=
  (buildAux p s p.maxIter 0 (.mk (some p.start) [])).1

/-- The tree owned by the planner when `build` returns. -/
def finalTree {n : ℕ} (p : AdaRRTParams n) (s : ℕ → Fin n → ℝ) : Node n :=
  (buildAux p s p.maxIter 0 (.mk (some p.start) [])).2

/-- Membership of a state among the nodes of a tree. -/
inductive StateIn {n : ℕ} (st : FState n) : Node n → Prop where
  | here (cs : List (Node n)) : StateIn st (.mk st cs)
  | via_child {s : FState n} {cs : List (Node n)} {c : Node n}
      (hc : c ∈ cs) (h : StateIn st c) : StateIn st (.mk s cs)

/-- Tree invariant: every child whose state is a real vector sits at
Euclidean distance `stepSize` from its parent, and its parent's state is
then a real vector too (the spec's distance bound; NaN children are the
edge case excluded by construction). -/
inductive StepOK {n : ℕ} (stepSize : ℝ) : Node n → Prop where
  | mk (s : FState n) (cs : List (Node n))
      (hrec : ∀ c ∈ cs, StepOK stepSize c)
      (hdist : ∀ c ∈ cs, ∀ w : Fin n → ℝ, Node.state c = some w →
        ∃ v : Fin n → ℝ, s = some v ∧ edist v w = stepSize) :
      StepOK stepSize (.mk s cs)

/-! ### Concrete one-dimensional instances (used for witnesses and
counterexamples) -/

/-- The origin of a one-dimensional configuration space. -/
def z1 : Fin 1 → ℝ := fun _ => 0

/-- The configuration `1` in one dimension. -/
def o1 : Fin 1 → ℝ := fun _ => 1

/-- The configuration `1/4` in one dimension. -/
def w1 : Fin 1 → ℝ := fun _ => 1 / 4

/-- A planner whose goal equals its start, with no collision constraint,
step size `1/4`, goal precision `1` and one iteration. -/
def pC : AdaRRTParams 1 :=
  { start := z1, goal := z1, oracle := none
    stepSize := 1 / 4, goalPrecision := 1, maxIter := 1 }

/-- A sample stream that always yields `o1`. -/
def sC : ℕ → Fin 1 → ℝ := fun _ => o1

/-- A planner for the degenerate-sample run (goal far away so nothing
completes). -/
def pDeg : AdaRRTParams 1 :=
  { start := z1, goal := o1, oracle := none
    stepSize := 1 / 4, goalPrecision := 1 / 2, maxIter := 1 }

/-- A sample stream that always yields the start state `z1` (a degenerate
sample for any tree rooted there). -/
def sDeg : ℕ → Fin 1 → ℝ := fun _ => z1

/-- A planner whose collision constraint's `is_satisfied` is always false,
so every queried state is reported as colliding. -/
def pRej : AdaRRTParams 1 :=
  { start := z1, goal := z1, oracle := some fun _ => false
    stepSize := 1 / 4, goalPrecision := 1, maxIter := 1 }

/-- A two-node tree: root `z1` with one child `o1`. -/
def tPair : Node 1 := .mk (some z1) [.mk (some o1) []]

/-- The configuration `2` in one dimension (a sample beyond a unit upper
joint limit). -/
def s2 : Fin 1 → ℝ := fun _ => 2

end

/-! ### Euclidean norm and distance lemmas -/

theorem enorm_nonneg {n : ℕ} (x : Fin n → ℝ) : 0 ≤ enorm x :=
  Real.sqrt_nonneg _

theorem enorm_eq_zero_iff {n : ℕ} (x : Fin n → ℝ) : enorm x = 0 ↔ x = 0 := by
  unfold enorm
  rw [Real.sqrt_eq_zero (by positivity)]
  constructor
  · intro h
    funext i
    have h2 := (Finset.sum_eq_zero_iff_of_nonneg
      (fun i _ => sq_nonneg (x i))).1 h i (Finset.mem_univ i)
    exact pow_eq_zero_iff two_ne_zero |>.1 h2
  · intro h
    subst h
    simp

theorem enorm_pos_of_ne_zero {n : ℕ} {x : Fin n → ℝ} (h : x ≠ 0) : 0 < enorm x :=
  lt_of_le_of_ne (enorm_nonneg x) fun he => h ((enorm_eq_zero_iff x).1 he.symm)

theorem enorm_smul {n : ℕ} (a : ℝ) (x : Fin n → ℝ) :
    enorm (a • x) = |a| * enorm x := by
  unfold enorm
  have h : ∑ i, (a • x) i ^ 2 = a ^ 2 * ∑ i, x i ^ 2 := by
    rw [Finset.mul_sum]
    refine Finset.sum_congr rfl fun i _ => ?_
    simp only [Pi.smul_apply, smul_eq_mul]
    ring
  rw [h, Real.sqrt_mul (sq_nonneg a), Real.sqrt_sq_eq_abs]

theorem enorm_neg {n : ℕ} (x : Fin n → ℝ) : enorm (-x) = enorm x := by
  unfold enorm
  congr 1
  refine Finset.sum_congr rfl fun i _ => ?_
  simp only [Pi.neg_apply]
  ring

theorem edist_comm {n : ℕ} (x y : Fin n → ℝ) : edist x y = edist y x := by
  unfold edist
  rw [← neg_sub y x, enorm_neg]

theorem edist_add {n : ℕ} (v z : Fin n → ℝ) : edist v (v + z) = enorm z := by
  unfold edist
  have h : v - (v + z) = -z := by ring
  rw [h, enorm_neg]

theorem edist_extend {n : ℕ} (v d : Fin n → ℝ) (step : ℝ)
    (hd : d ≠ 0) (hstep : 0 ≤ step) :
    edist v (v + step • ((enorm d)⁻¹ • d)) = step := by
  rw [edist_add, enorm_smul, enorm_smul, abs_of_nonneg hstep,
    abs_of_nonneg (inv_nonneg.2 (enorm_nonneg d)),
    inv_mul_cancel₀ (ne_of_gt (enorm_pos_of_ne_zero hd)), mul_one]

/-! ### List and tree structural lemmas -/

theorem get?_modifyIdx_self {α : Type _} (f : α → α) :
    ∀ (i : ℕ) (l : List α), (modifyIdx f i l).get? i = (l.get? i).map f := by
  intro i l
  induction l generalizing i with
  | nil => cases i <;> simp [modifyIdx]
  | cons a l ih =>
    cases i with
    | zero => simp [modifyIdx]
    | succ i => simpa [modifyIdx] using ih i

theorem mem_modifyIdx {α : Type _} (f : α → α) :
    ∀ (i : ℕ) (l : List α) (x : α), x ∈ modifyIdx f i l →
      x ∈ l ∨ ∃ a, l.get? i = some a ∧ x = f a := by
  intro i l
  induction l generalizing i with
  | nil => intro x hx; simp [modifyIdx] at hx
  | cons a l ih =>
    intro x hx
    cases i with
    | zero =>
      rcases List.mem_cons.1 hx with rfl | hx'
      · exact Or.inr ⟨a, rfl, rfl⟩
      · exact Or.inl (List.mem_cons_of_mem _ hx')
    | succ i =>
      rcases List.mem_cons.1 hx with rfl | hx'
      · exact Or.inl (List.mem_cons_self _ _)
      · rcases ih i x hx' with h | ⟨b, hb, rfl⟩
        · exact Or.inl (List.mem_cons_of_mem _ h)
        · exact Or.inr ⟨b, by simpa using hb, rfl⟩

theorem nodeAt_nil {n : ℕ} (t : Node n) : nodeAt [] t = some t := rfl

theorem nodeAt_cons {n : ℕ} (i : ℕ) (q : List ℕ) (s : FState n)
    (cs : List (Node n)) :
    nodeAt (i :: q) (.mk s cs) = (cs.get? i).bind (nodeAt q) := rfl

theorem nodeAt_append {n : ℕ} :
    ∀ (q1 q2 : List ℕ) (t : Node n),
      nodeAt (q1 ++ q2) t = (nodeAt q1 t).bind (nodeAt q2) := by
  intro q1 q2
  induction q1 with
  | nil => intro t; simp [nodeAt]
  | cons i q1 ih =>
    intro t
    cases t with
    | mk s cs =>
      rw [List.cons_append, nodeAt_cons, nodeAt_cons]
      cases cs.get? i with
      | none => simp
      | some c => simp only [Option.some_bind]; exact ih c

theorem state_addChildAt {n : ℕ} (q : List ℕ) (st : FState n) (t : Node n) :
    (addChildAt q st t).state = t.state := by
  cases q <;> cases t <;> rfl

theorem nodeAt_addChildAt_self {n : ℕ} :
    ∀ (q : List ℕ) (st : FState n) (t r : Node n), nodeAt q t = some r →
      nodeAt q (addChildAt q st t) =
        some (.mk r.state (r.children ++ [.mk st []])) := by
  intro q st
  induction q with
  | nil =>
    intro t r h
    cases t with
    | mk s cs =>
      simp only [nodeAt, Option.some.injEq] at h
      subst h
      rfl
  | cons i q ih =>
    intro t r h
    cases t with
    | mk s cs =>
      rw [nodeAt_cons] at h
      cases hc : cs.get? i with
      | none => rw [hc] at h; exact absurd h (by simp)
      | some c =>
        rw [hc, Option.some_bind] at h
        show nodeAt (i :: q) (Node.mk s (modifyIdx (addChildAt q st) i cs)) = _
        rw [nodeAt_cons, get?_modifyIdx_self, hc, Option.map_some',
          Option.some_bind]
        exact ih c r h

theorem nodeAt_addChildAt_new {n : ℕ} (q : List ℕ) (st : FState n)
    (t r : Node n) (h : nodeAt q t = some r) :
    nodeAt (q ++ [r.children.length]) (addChildAt q st t) =
      some (.mk st []) := by
  rw [nodeAt_append, nodeAt_addChildAt_self q st t r h, Option.some_bind,
    nodeAt_cons, List.get?_concat_length, Option.some_bind, nodeAt_nil]

theorem nodeAt_new_none {n : ℕ} (q : List ℕ) (t r : Node n)
    (h : nodeAt q t = some r) :
    nodeAt (q ++ [r.children.length]) t = none := by
  rw [nodeAt_append, h, Option.some_bind]
  cases r with
  | mk s cs =>
    show nodeAt [(Node.mk s cs).children.length] (Node.mk s cs) = none
    rw [show (Node.mk s cs).children = cs from rfl, nodeAt_cons,
      List.get?_eq_none.2 (le_refl _)]
    rfl

theorem List.get?_mem' {α : Type _} {l : List α} {i : ℕ} {a : α}
    (h : l.get? i = some a) : a ∈ l := by
  induction l generalizing i with
  | nil => simp at h
  | cons b l ih =>
    cases i with
    | zero => simp at h; exact h ▸ List.mem_cons_self _ _
    | succ i => exact List.mem_cons_of_mem _ (ih (by simpa using h))

theorem StateIn_addChildAt {n : ℕ} :
    ∀ (q : List ℕ) (st0 st : FState n) (t : Node n),
      StateIn st (addChildAt q st0 t) → StateIn st t ∨ st = st0 := by
  intro q st0 st
  induction q with
  | nil =>
    intro t h
    cases t with
    | mk s cs =>
      simp only [addChildAt] at h
      cases h with
      | here => exact Or.inl (StateIn.here cs)
      | via_child hc h' =>
        rcases List.mem_append.1 hc with hc' | hc'
        · exact Or.inl (StateIn.via_child hc' h')
        · have : _ = Node.mk st0 [] := List.mem_singleton.1 hc'
          subst this
          cases h' with
          | here => exact Or.inr rfl
          | via_child hc'' _ => simp at hc''
  | cons i q ih =>
    intro t h
    cases t with
    | mk s cs =>
      simp only [addChildAt] at h
      cases h with
      | here => exact Or.inl (StateIn.here cs)
      | via_child hc h' =>
        rcases mem_modifyIdx _ i cs _ hc with hc' | ⟨a, ha, rfl⟩
        · exact Or.inl (StateIn.via_child hc' h')
        · rcases ih a h' with h'' | h''
          · exact Or.inl (StateIn.via_child (List.get?_mem' ha) h'')
          · exact Or.inr h''

theorem stepOK_inv {n : ℕ} {stepSize : ℝ} {s : FState n} {cs : List (Node n)}
    (h : StepOK stepSize (.mk s cs)) :
    (∀ c ∈ cs, StepOK stepSize c) ∧
      (∀ c ∈ cs, ∀ w : Fin n → ℝ, Node.state c = some w →
        ∃ v : Fin n → ℝ, s = some v ∧ edist v w = stepSize) := by
  cases h with
  | mk _ _ hrec hdist => exact ⟨hrec, hdist⟩

theorem stepOK_addChildAt {n : ℕ} {stepSize : ℝ} :
    ∀ (q : List ℕ) (st : FState n) (t r : Node n),
      StepOK stepSize t → nodeAt q t = some r →
      (∀ w : Fin n → ℝ, st = some w →
        ∃ v : Fin n → ℝ, r.state = some v ∧ edist v w = stepSize) →
      StepOK stepSize (addChildAt q st t) := by
  intro q st
  induction q with
  | nil =>
    intro t r hok h hnew
    cases t with
    | mk s cs =>
      simp only [nodeAt, Option.some.injEq] at h
      subst h
      obtain ⟨hrec, hdist⟩ := stepOK_inv hok
      refine StepOK.mk s (cs ++ [.mk st []]) ?_ ?_
      · intro c hc
        rcases List.mem_append.1 hc with hc' | hc'
        · exact hrec c hc'
        · have : c = Node.mk st [] := List.mem_singleton.1 hc'
          subst this
          exact StepOK.mk st [] (by simp) (by simp)
      · intro c hc w hw
        rcases List.mem_append.1 hc with hc' | hc'
        · exact hdist c hc' w hw
        · have : c = Node.mk st [] := List.mem_singleton.1 hc'
          subst this
          exact hnew w hw
  | cons i q ih =>
    intro t r hok h hnew
    cases t with
    | mk s cs =>
      simp only [nodeAt] at h
      cases hc : cs.get? i with
      | none => rw [hc] at h; exact absurd h (by simp)
      | some c =>
        rw [hc] at h
        obtain ⟨hrec, hdist⟩ := stepOK_inv hok
        refine StepOK.mk s (modifyIdx (addChildAt q st) i cs) ?_ ?_
        · intro c' hc'
          rcases mem_modifyIdx _ i cs _ hc' with h' | ⟨a, ha, rfl⟩
          · exact hrec c' h'
          · have hac : a = c := by
              rw [hc] at ha
              exact (Option.some.inj ha).symm
            subst hac
            exact ih a r (hrec a (List.get?_mem' hc)) h hnew
        · intro c' hc' w hw
          rcases mem_modifyIdx _ i cs _ hc' with h' | ⟨a, ha, rfl⟩
          · exact hdist c' h' w hw
          · have hac : a = c := by
              rw [hc] at ha
              exact (Option.some.inj ha).symm
            subst hac
            rw [state_addChildAt] at hw
            exact hdist a (List.get?_mem' hc) w hw

/-! ### Path reconstruction lemmas -/

theorem tracePathFromStart_eq_statesDown {n : ℕ} :
    ∀ (q : List ℕ) (t : Node n), tracePathFromStart q t = statesDown q t := by
  intro q
  induction q with
  | nil => intro t; simp [tracePathFromStart, walkUp, statesDown]
  | cons i q ih =>
    intro t
    cases t with
    | mk s cs =>
      simp only [tracePathFromStart, walkUp, statesDown]
      cases hc : cs.get? i with
      | none => simp only [hc]; simp
      | some c =>
        have h := ih c
        simp only [tracePathFromStart] at h
        simp only [hc, List.reverse_append, h]
        simp

theorem statesDown_head {n : ℕ} (q : List ℕ) (t : Node n) :
    (statesDown q t).head? = some t.state := by
  cases q with
  | nil => rfl
  | cons i q => cases t with | mk s cs => rfl

/-- Along any valid address whose endpoint holds a real state, the collected
states are all real, start at the root's state, end at the endpoint's state,
and consecutive states are `stepSize` apart (the `StepOK` invariant
propagated bottom-up). -/
theorem statesDown_chain {n : ℕ} (stepSize : ℝ) :
    ∀ (q : List ℕ) (t r : Node n) (w : Fin n → ℝ),
      StepOK stepSize t → nodeAt q t = some r → r.state = some w →
      ∃ (vs : List (Fin n → ℝ)) (h0 : Fin n → ℝ),
        statesDown q t = vs.map some ∧ vs.head? = some h0 ∧
        t.state = some h0 ∧ vs.getLast? = some w ∧
        List.Chain' (fun a b => edist a b = stepSize) vs := by
  intro q
  induction q with
  | nil =>
    intro t r w _ h hw
    rw [nodeAt_nil] at h
    have hrt : t = r := Option.some.inj h
    subst hrt
    refine ⟨[w], w, ?_, rfl, hw, rfl, ?_⟩
    · show statesDown [] t = [some w]
      rw [show statesDown [] t = [t.state] from rfl, hw]
    · simp
  | cons i q ih =>
    intro t r w hok h hw
    cases t with
    | mk s cs =>
      rw [nodeAt_cons] at h
      cases hc : cs.get? i with
      | none => rw [hc] at h; exact absurd h (by simp)
      | some c =>
        rw [hc, Option.some_bind] at h
        obtain ⟨hrec, hdist⟩ := stepOK_inv hok
        obtain ⟨vs', h0', hsd, hhd, hcst, hlast, hchain⟩ :=
          ih c r w (hrec c (List.get?_mem' hc)) h hw
        obtain ⟨v, hsv, hd⟩ := hdist c (List.get?_mem' hc) h0' hcst
        obtain ⟨vs'', rfl⟩ : ∃ vs'', vs' = h0' :: vs'' := by
          cases vs' with
          | nil => simp at hhd
          | cons a vs'' =>
            have ha : a = h0' := by simpa using hhd
            exact ⟨vs'', by rw [ha]⟩
        refine ⟨v :: h0' :: vs'', v, ?_, rfl, hsv, ?_, ?_⟩
        · show statesDown (i :: q) (Node.mk s cs) = _
          simp only [statesDown, hc, hsd, List.map_cons]
          rw [hsv]
        · rw [List.getLast?_cons_cons]
          exact hlast
        · rw [List.chain'_cons]
          exact ⟨hd, hchain⟩

/-! ### Breadth-first traversal lemmas -/

theorem bfsAux_nil {n : ℕ} : bfsAux ([] : List (List ℕ × Node n)) = [] := by
  simp [bfsAux]

theorem bfsAux_cons {n : ℕ} (q : List ℕ) (s : FState n) (cs : List (Node n))
    (rest : List (List ℕ × Node n)) :
    bfsAux ((q, Node.mk s cs) :: rest) =
      (q, Node.mk s cs) :: bfsAux (rest ++ childPairs q 0 cs) := by
  simp [bfsAux]

theorem bfsPairs_def {n : ℕ} (s : FState n) (cs : List (Node n)) :
    bfsPairs (Node.mk s cs) =
      ([], Node.mk s cs) :: bfsAux (childPairs [] 0 cs) := by
  unfold bfsPairs
  rw [bfsAux_cons]
  simp

theorem pairsMeasure_step {n : ℕ} (q : List ℕ) (s : FState n)
    (cs : List (Node n)) (rest : List (List ℕ × Node n)) :
    pairsMeasure (rest ++ childPairs q 0 cs) <
      pairsMeasure ((q, Node.mk s cs) :: rest) := by
  have h0 : pairsMeasure ((q, Node.mk s cs) :: rest) =
      sizeOf (Node.mk s cs) + pairsMeasure rest := pairsMeasure_cons _ _
  rw [h0, pairsMeasure_append, pairsMeasure_childPairs]
  have h1 := sum_map_sizeOf_le cs
  have h2 : sizeOf cs < sizeOf (Node.mk s cs) := by
    simp only [Node.mk.sizeOf_spec]
    omega
  omega

theorem childPairs_sound {n : ℕ} (q : List ℕ) :
    ∀ (cs : List (Node n)) (j : ℕ) (pr : List ℕ × Node n),
      pr ∈ childPairs q j cs →
      ∃ i c, cs.get? i = some c ∧ pr = (q ++ [j + i], c) := by
  intro cs
  induction cs with
  | nil => intro j pr h; simp [childPairs] at h
  | cons c cs ih =>
    intro j pr h
    rcases List.mem_cons.1 h with rfl | h'
    · exact ⟨0, c, rfl, by simp⟩
    · obtain ⟨i, c', hget, rfl⟩ := ih (j + 1) _ h'
      refine ⟨i + 1, c', by simpa using hget, ?_⟩
      rw [show j + (i + 1) = j + 1 + i from by omega]

theorem childPairs_complete {n : ℕ} (q : List ℕ) :
    ∀ (cs : List (Node n)) (j : ℕ) (c : Node n), c ∈ cs →
      ∃ qq, (qq, c) ∈ childPairs q j cs := by
  intro cs
  induction cs with
  | nil => intro j c hc; simp at hc
  | cons a cs ih =>
    intro j c hc
    rcases List.mem_cons.1 hc with rfl | hc'
    · exact ⟨q ++ [j], List.mem_cons_self _ _⟩
    · obtain ⟨qq, hm⟩ := ih (j + 1) c hc'
      exact ⟨qq, List.mem_cons_of_mem _ hm⟩

theorem bfsAux_valid_bounded {n : ℕ} (t : Node n) :
    ∀ (N : ℕ) (l : List (List ℕ × Node n)), pairsMeasure l < N →
      (∀ pr ∈ l, nodeAt pr.1 t = some pr.2) →
      ∀ pr ∈ bfsAux l, nodeAt pr.1 t = some pr.2 := by
  intro N
  induction N with
  | zero => intro l hm; omega
  | succ N ih =>
    intro l hm hl
    cases l with
    | nil => rw [bfsAux_nil]; intro pr h; simp at h
    | cons hd rest =>
      obtain ⟨q, t0⟩ := hd
      cases t0 with
      | mk s cs =>
        rw [bfsAux_cons]
        intro pr hpr
        rcases List.mem_cons.1 hpr with rfl | hpr'
        · exact hl _ (List.mem_cons_self _ _)
        · refine ih (rest ++ childPairs q 0 cs) ?_ ?_ pr hpr'
          · have := pairsMeasure_step q s cs rest
            omega
          · intro pr' hpr''
            rcases List.mem_append.1 hpr'' with h' | h'
            · exact hl pr' (List.mem_cons_of_mem _ h')
            · obtain ⟨i, c, hget, rfl⟩ := childPairs_sound q cs 0 pr' h'
              have hq : nodeAt q t = some (Node.mk s cs) :=
                hl _ (List.mem_cons_self _ _)
              rw [show (0 : ℕ) + i = i from by omega, nodeAt_append, hq,
                Option.some_bind, nodeAt_cons, hget, Option.some_bind,
                nodeAt_nil]

/-- Every pair produced by the breadth-first traversal is a valid address of
the traversed tree holding the paired node. -/
theorem bfsPairs_valid {n : ℕ} (t : Node n) :
    ∀ pr ∈ bfsPairs t, nodeAt pr.1 t = some pr.2 := by
  refine bfsAux_valid_bounded t (pairsMeasure [([], t)] + 1) _ (by omega) ?_
  intro pr hpr
  have : pr = ([], t) := by simpa using hpr
  subst this
  exact nodeAt_nil t

theorem bfsAux_complete_bounded {n : ℕ} :
    ∀ (N : ℕ) (l : List (List ℕ × Node n)), pairsMeasure l < N →
      ∀ (q0 : List ℕ) (t0 : Node n), (q0, t0) ∈ l →
      ∀ st : FState n, StateIn st t0 →
      ∃ pr, pr ∈ bfsAux l ∧ Node.state pr.2 = st := by
  intro N
  induction N with
  | zero => intro l hm; omega
  | succ N ih =>
    intro l hm q0 t0 hmem st hst
    cases l with
    | nil => simp at hmem
    | cons hd rest =>
      obtain ⟨q, t1⟩ := hd
      cases t1 with
      | mk s cs =>
        rw [bfsAux_cons]
        rcases List.mem_cons.1 hmem with heq | hmem'
        · have hq2 : t0 = Node.mk s cs := congrArg Prod.snd heq
          rw [hq2] at hst
          cases hst with
          | here _ =>
            exact ⟨(q, Node.mk st cs), List.mem_cons_self _ _, rfl⟩
          | via_child hc h' =>
            obtain ⟨qq, hqq⟩ := childPairs_complete q cs 0 _ hc
            obtain ⟨pr, hpr, hprst⟩ :=
              ih (rest ++ childPairs q 0 cs)
                (by have := pairsMeasure_step q s cs rest; omega)
                qq _ (List.mem_append.2 (Or.inr hqq)) st h'
            exact ⟨pr, List.mem_cons_of_mem _ hpr, hprst⟩
        · obtain ⟨pr, hpr, hprst⟩ :=
            ih (rest ++ childPairs q 0 cs)
              (by have := pairsMeasure_step q s cs rest; omega)
              q0 t0 (List.mem_append.2 (Or.inl hmem')) st hst
          exact ⟨pr, List.mem_cons_of_mem _ hpr, hprst⟩

/-- The breadth-first traversal visits every node of the tree: any state
held by some node of the tree appears among the traversed pairs. -/
theorem bfsPairs_complete {n : ℕ} (t : Node n) (st : FState n)
    (h : StateIn st t) : ∃ pr, pr ∈ bfsPairs t ∧ Node.state pr.2 = st := by
  refine bfsAux_complete_bounded (pairsMeasure [([], t)] + 1) _ (by omega)
    [] t ?_ st h
  exact List.mem_cons_self _ _

/-! ### Lemmas about Python's `min` with a key (first minimum wins) -/

theorem oltB_some_some (x y : ℝ) : oltB (some x) (some y) = decide (x < y) := rfl

theorem oltB_none_right (a : Option ℝ) : oltB a none = false := by
  cases a <;> rfl

theorem oltB_none_left (a : Option ℝ) : oltB none a = false := by
  cases a <;> rfl

theorem oltB_irrefl (a : Option ℝ) : oltB a a = false := by
  cases a with
  | none => rfl
  | some x => simp [oltB_some_some]

theorem oltB_true_elim {a b : Option ℝ} (h : oltB a b = true) :
    ∃ x y, a = some x ∧ b = some y ∧ x < y := by
  cases a with
  | none => rw [oltB_none_left] at h; exact absurd h (by simp)
  | some x =>
    cases b with
    | none => rw [oltB_none_right] at h; exact absurd h (by simp)
    | some y =>
      rw [oltB_some_some, decide_eq_true_eq] at h
      exact ⟨x, y, rfl, rfl, h⟩

theorem firstMinBy_mem {α : Type _} (key : α → Option ℝ) :
    ∀ (l : List α) (b : α), firstMinBy key b l ∈ b :: l := by
  intro l
  induction l with
  | nil => intro b; simp [firstMinBy]
  | cons x xs ih =>
    intro b
    show firstMinBy key (if oltB (key x) (key b) then x else b) xs ∈ b :: x :: xs
    by_cases hc : oltB (key x) (key b) = true
    · rw [if_pos hc]
      rcases List.mem_cons.1 (ih x) with h | h
      · rw [h]; exact List.mem_cons_of_mem _ (List.mem_cons_self _ _)
      · exact List.mem_cons_of_mem _ (List.mem_cons_of_mem _ h)
    · rw [if_neg hc]
      rcases List.mem_cons.1 (ih b) with h | h
      · rw [h]; exact List.mem_cons_self _ _
      · exact List.mem_cons_of_mem _ (List.mem_cons_of_mem _ h)

theorem firstMinBy_of_none {α : Type _} (key : α → Option ℝ) :
    ∀ (l : List α) (b : α), key b = none → firstMinBy key b l = b := by
  intro l
  induction l with
  | nil => intro b _; rfl
  | cons x xs ih =>
    intro b hb
    show firstMinBy key (if oltB (key x) (key b) then x else b) xs = b
    have h : (if oltB (key x) (key b) then x else b) = b := by
      rw [hb, oltB_none_right]
      simp
    rw [h]
    exact ih b hb

theorem firstMinBy_key_isSome {α : Type _} (key : α → Option ℝ) :
    ∀ (l : List α) (b : α), (key b).isSome →
      (key (firstMinBy key b l)).isSome := by
  intro l
  induction l with
  | nil => intro b hb; exact hb
  | cons x xs ih =>
    intro b hb
    show (key (firstMinBy key (if oltB (key x) (key b) then x else b) xs)).isSome
    by_cases hc : oltB (key x) (key b) = true
    · rw [if_pos hc]
      obtain ⟨xa, _, ha, _, _⟩ := oltB_true_elim hc
      exact ih x (by rw [ha]; rfl)
    · rw [if_neg hc]
      exact ih b hb

/-- No element of the scanned list (initial best included) has a key
strictly below the key of the first minimum: the result of Python's `min`
is never beaten, NaN keys included. -/
theorem firstMinBy_min {α : Type _} (key : α → Option ℝ) :
    ∀ (l : List α) (b x : α), x ∈ b :: l →
      oltB (key x) (key (firstMinBy key b l)) = false := by
  intro l
  induction l with
  | nil =>
    intro b x hx
    have hxb : x = b := by simpa using hx
    subst hxb
    exact oltB_irrefl _
  | cons a l ih =>
    intro b x hx
    by_cases hab : oltB (key a) (key b) = true
    · have hres : firstMinBy key b (a :: l) = firstMinBy key a l := by
        show firstMinBy key (if oltB (key a) (key b) then a else b) l = _
        rw [if_pos hab]
      rw [hres]
      rcases List.mem_cons.1 hx with rfl | hx'
      · obtain ⟨xa, xb, ha, hb, hlt⟩ := oltB_true_elim hab
        have har : oltB (key a) (key (firstMinBy key a l)) = false :=
          ih a a (List.mem_cons_self _ _)
        cases hr : key (firstMinBy key a l) with
        | none => exact oltB_none_right _
        | some xr =>
          rw [ha, hr, oltB_some_some, decide_eq_false_iff_not] at har
          rw [hb, oltB_some_some, decide_eq_false_iff_not]
          linarith
      · exact ih a x hx'
    · have hab' : oltB (key a) (key b) = false := by
        cases h : oltB (key a) (key b) with
        | false => rfl
        | true => exact absurd h hab
      have hres : firstMinBy key b (a :: l) = firstMinBy key b l := by
        show firstMinBy key (if oltB (key a) (key b) then a else b) l = _
        rw [if_neg (by simp [hab'])]
      rw [hres]
      rcases List.mem_cons.1 hx with rfl | hx'
      · exact ih x x (List.mem_cons_self _ _)
      rcases List.mem_cons.1 hx' with rfl | hx''
      · cases hr : key (firstMinBy key b l) with
        | none => exact oltB_none_right _
        | some xr =>
          cases hka : key x with
          | none => exact oltB_none_left _
          | some xa =>
            cases hkb : key b with
            | none =>
              have hfb := firstMinBy_of_none key l b hkb
              rw [hfb, hkb] at hr
              exact absurd hr (by simp)
            | some xb =>
              have hbr : oltB (key b) (key (firstMinBy key b l)) = false :=
                ih b b (List.mem_cons_self _ _)
              rw [hkb, hr, oltB_some_some, decide_eq_false_iff_not] at hbr
              rw [hka, hkb, oltB_some_some, decide_eq_false_iff_not] at hab'
              rw [oltB_some_some, decide_eq_false_iff_not]
              linarith
      · exact ih b x (List.mem_cons_of_mem _ hx'')

/-- When all keys are real, the scanned list splits around the first
minimum: every element strictly before it has a strictly larger key (the
tie-breaking clause: among equal minima the first encountered wins). -/
theorem firstMinBy_split {α : Type _} (key : α → Option ℝ) :
    ∀ (l : List α) (b : α), (∀ x ∈ b :: l, (key x).isSome) →
      ∃ l1 l2, b :: l = l1 ++ firstMinBy key b l :: l2 ∧
        ∀ x ∈ l1, oltB (key (firstMinBy key b l)) (key x) = true := by
  intro l
  induction l with
  | nil => intro b _; exact ⟨[], [], rfl, by simp⟩
  | cons a l ih =>
    intro b hsome
    by_cases hab : oltB (key a) (key b) = true
    · have hres : firstMinBy key b (a :: l) = firstMinBy key a l := by
        show firstMinBy key (if oltB (key a) (key b) then a else b) l = _
        rw [if_pos hab]
      rw [hres]
      have hsome' : ∀ x ∈ a :: l, (key x).isSome := fun x hx =>
        hsome x (List.mem_cons_of_mem _ hx)
      obtain ⟨l1, l2, hsplit, hl1⟩ := ih a hsome'
      refine ⟨b :: l1, l2, by rw [List.cons_append, ← hsplit], ?_⟩
      intro x hx
      rcases List.mem_cons.1 hx with rfl | hx'
      · obtain ⟨xa, xb, ha, hb, hlt⟩ := oltB_true_elim hab
        have hra : oltB (key a) (key (firstMinBy key a l)) = false :=
          firstMinBy_min key l a a (List.mem_cons_self _ _)
        have hrsome : (key (firstMinBy key a l)).isSome :=
          firstMinBy_key_isSome key l a (by rw [ha]; rfl)
        obtain ⟨xr, hr⟩ := Option.isSome_iff_exists.1 hrsome
        rw [ha, hr, oltB_some_some, decide_eq_false_iff_not] at hra
        rw [hr, hb, oltB_some_some, decide_eq_true_eq]
        linarith
      · exact hl1 x hx'
    · have hab' : oltB (key a) (key b) = false := by
        cases h : oltB (key a) (key b) with
        | false => rfl
        | true => exact absurd h hab
      have hres : firstMinBy key b (a :: l) = firstMinBy key b l := by
        show firstMinBy key (if oltB (key a) (key b) then a else b) l = _
        rw [if_neg (by simp [hab'])]
      rw [hres]
      have hsome' : ∀ x ∈ b :: l, (key x).isSome := by
        intro x hx
        rcases List.mem_cons.1 hx with rfl | hx'
        · exact hsome x (List.mem_cons_self _ _)
        · exact hsome x
            (List.mem_cons_of_mem _ (List.mem_cons_of_mem _ hx'))
      obtain ⟨l1, l2, hsplit, hl1⟩ := ih b hsome'
      cases l1 with
      | nil =>
        simp only [List.nil_append] at hsplit
        obtain ⟨hb1, hl2⟩ := List.cons.inj hsplit
        refine ⟨[], a :: l2, ?_, by simp⟩
        rw [List.nil_append, ← hb1, ← hl2]
      | cons y l1' =>
        obtain ⟨hy, hrest⟩ := List.cons.inj hsplit
        have hrest' : l = l1' ++ firstMinBy key b l :: l2 := hrest
        refine ⟨b :: a :: l1', l2, ?_, ?_⟩
        · rw [List.cons_append, List.cons_append, ← hrest']
        · intro x hx
          rcases List.mem_cons.1 hx with rfl | hx1
          · have h := hl1 y (List.mem_cons_self _ _)
            rw [← hy] at h
            exact h
          rcases List.mem_cons.1 hx1 with rfl | hx2
          · have hbmem : b ∈ y :: l1' := by
              rw [← hy]; exact List.mem_cons_self _ _
            have hrb : oltB (key (firstMinBy key b l)) (key b) = true :=
              hl1 b hbmem
            obtain ⟨xr, xb, hr, hkb, hlt⟩ := oltB_true_elim hrb
            obtain ⟨xa, hka⟩ := Option.isSome_iff_exists.1
              (hsome x (List.mem_cons_of_mem _ (List.mem_cons_self _ _)))
            rw [hka, hkb, oltB_some_some, decide_eq_false_iff_not] at hab'
            rw [hr, hka, oltB_some_some, decide_eq_true_eq]
            linarith
          · exact hl1 x (List.mem_cons_of_mem _ hx2)

/-! ### Nearest-neighbor, extension and check lemmas -/

theorem distKey_isSome {n : ℕ} (sample : Fin n → ℝ) (st : FState n) :
    (distKey sample st).isSome = Option.isSome st := by
  cases st <;> rfl

theorem nearestNeighbor_eq {n : ℕ} (s : FState n) (cs : List (Node n))
    (sample : Fin n → ℝ) :
    nearestNeighbor (.mk s cs) sample =
      firstMinBy (fun pr => distKey sample pr.2.state) ([], .mk s cs)
        (bfsAux (childPairs [] 0 cs)) := by
  unfold nearestNeighbor
  rw [bfsPairs_def]

theorem nearestNeighbor_mem {n : ℕ} (t : Node n) (sample : Fin n → ℝ) :
    nearestNeighbor t sample ∈ bfsPairs t := by
  cases t with
  | mk s cs =>
    rw [nearestNeighbor_eq, bfsPairs_def]
    exact firstMinBy_mem _ _ _

theorem nearestNeighbor_state_isSome {n : ℕ} (t : Node n)
    (sample : Fin n → ℝ) (h : Option.isSome t.state) :
    Option.isSome (nearestNeighbor t sample).2.state := by
  cases t with
  | mk s cs =>
    rw [nearestNeighbor_eq]
    have hkey := firstMinBy_key_isSome (fun pr => distKey sample pr.2.state)
      (bfsAux (childPairs [] 0 cs)) ([], .mk s cs)
      (by rw [distKey_isSome]; exact h)
    rw [distKey_isSome] at hkey
    exact hkey

theorem extendState_nan {n : ℕ} (sample : Fin n → ℝ) (stepSize : ℝ) :
    extendState sample (none : FState n) stepSize = none := rfl

theorem extendState_some {n : ℕ} (sample v : Fin n → ℝ) (stepSize : ℝ)
    (hne : sample ≠ v) :
    extendState sample (some v) stepSize =
      some (v + stepSize • ((enorm (sample - v))⁻¹ • (sample - v))) := by
  have h : extendState sample (some v) stepSize =
      if sample = v then none
      else some (v + stepSize • ((enorm (sample - v))⁻¹ • (sample - v))) := rfl
  rw [h, if_neg hne]

theorem extendState_degenerate {n : ℕ} (sample : Fin n → ℝ) (stepSize : ℝ) :
    extendState sample (some sample) stepSize = none := by
  have h : extendState sample (some sample) stepSize =
      if sample = sample then none
      else some (sample + stepSize •
        ((enorm (sample - sample))⁻¹ • (sample - sample))) := rfl
  rw [h, if_pos rfl]

theorem extendState_of_eq_some {n : ℕ} {sample : Fin n → ℝ} {nst : FState n}
    {stepSize : ℝ} {w : Fin n → ℝ} (hstep : 0 ≤ stepSize)
    (h : extendState sample nst stepSize = some w) :
    ∃ v, nst = some v ∧ sample ≠ v ∧
      w = v + stepSize • ((enorm (sample - v))⁻¹ • (sample - v)) ∧
      edist v w = stepSize := by
  cases nst with
  | none => rw [extendState_nan] at h; exact absurd h (by simp)
  | some v =>
    by_cases hne : sample = v
    · subst hne
      rw [extendState_degenerate] at h
      exact absurd h (by simp)
    · rw [extendState_some sample v stepSize hne] at h
      have hw := Option.some.inj h
      subst hw
      refine ⟨v, rfl, hne, rfl, ?_⟩
      exact edist_extend v (sample - v) stepSize (sub_ne_zero.2 hne) hstep

theorem checkForCompletion_some {n : ℕ} (goal : Fin n → ℝ) (prec : ℝ)
    (v : Fin n → ℝ) :
    checkForCompletion goal prec (some v) = true ↔ edist v goal < prec := by
  show decide (edist v goal < prec) = true ↔ _
  rw [decide_eq_true_eq]

theorem checkForCompletion_nan {n : ℕ} (goal : Fin n → ℝ) (prec : ℝ) :
    checkForCompletion goal prec (none : FState n) = false := rfl

theorem checkForCompletion_elim {n : ℕ} {goal : Fin n → ℝ} {prec : ℝ}
    {st : FState n} (h : checkForCompletion goal prec st = true) :
    ∃ w, st = some w ∧ edist w goal < prec := by
  cases st with
  | none => rw [checkForCompletion_nan] at h; exact absurd h (by simp)
  | some v => exact ⟨v, rfl, (checkForCompletion_some goal prec v).1 h⟩

theorem checkForCollision_noOracle {n : ℕ} (st : FState n) :
    checkForCollision none st = false := rfl

/-! ### Step equations of the planner loop -/

theorem buildAux_zero {n : ℕ} (p : AdaRRTParams n) (s : ℕ → Fin n → ℝ)
    (k : ℕ) (t : Node n) : buildAux p s 0 k t = (none, t) := rfl

theorem buildAux_succ {n : ℕ} (p : AdaRRTParams n) (s : ℕ → Fin n → ℝ)
    (fuel k : ℕ) (t : Node n) :
    buildAux p s (fuel + 1) k t =
      (if checkForCollision p.oracle
          (extendState (s k) (nearestNeighbor t (s k)).2.state p.stepSize) then
        buildAux p s fuel (k + 1) t
      else if checkForCompletion p.goal p.goalPrecision
          (extendState (s k) (nearestNeighbor t (s k)).2.state p.stepSize) then
        (some (tracePathFromStart
            ((nearestNeighbor t (s k)).1 ++
              [(nearestNeighbor t (s k)).2.children.length])
            (addChildAt (nearestNeighbor t (s k)).1
              (extendState (s k) (nearestNeighbor t (s k)).2.state p.stepSize) t)),
          addChildAt (nearestNeighbor t (s k)).1
            (extendState (s k) (nearestNeighbor t (s k)).2.state p.stepSize) t)
      else
        buildAux p s fuel (k + 1)
          (addChildAt (nearestNeighbor t (s k)).1
            (extendState (s k) (nearestNeighbor t (s k)).2.state p.stepSize) t)) := rfl

theorem buildAux_step_rejected {n : ℕ} (p : AdaRRTParams n)
    (s : ℕ → Fin n → ℝ) (fuel k : ℕ) (t : Node n)
    (h : checkForCollision p.oracle
      (extendState (s k) (nearestNeighbor t (s k)).2.state p.stepSize) = true) :
    buildAux p s (fuel + 1) k t = buildAux p s fuel (k + 1) t := by
  rw [buildAux_succ, if_pos h]

theorem buildAux_step_success {n : ℕ} (p : AdaRRTParams n)
    (s : ℕ → Fin n → ℝ) (fuel k : ℕ) (t : Node n)
    (hcol : checkForCollision p.oracle
      (extendState (s k) (nearestNeighbor t (s k)).2.state p.stepSize) = false)
    (hcomp : checkForCompletion p.goal p.goalPrecision
      (extendState (s k) (nearestNeighbor t (s k)).2.state p.stepSize) = true) :
    buildAux p s (fuel + 1) k t =
      (some (tracePathFromStart
          ((nearestNeighbor t (s k)).1 ++
            [(nearestNeighbor t (s k)).2.children.length])
          (addChildAt (nearestNeighbor t (s k)).1
            (extendState (s k) (nearestNeighbor t (s k)).2.state p.stepSize) t)),
        addChildAt (nearestNeighbor t (s k)).1
          (extendState (s k) (nearestNeighbor t (s k)).2.state p.stepSize) t) := by
  rw [buildAux_succ, if_neg (by simp [hcol]), if_pos hcomp]

theorem buildAux_step_grow {n : ℕ} (p : AdaRRTParams n)
    (s : ℕ → Fin n → ℝ) (fuel k : ℕ) (t : Node n)
    (hcol : checkForCollision p.oracle
      (extendState (s k) (nearestNeighbor t (s k)).2.state p.stepSize) = false)
    (hcomp : checkForCompletion p.goal p.goalPrecision
      (extendState (s k) (nearestNeighbor t (s k)).2.state p.stepSize) = false) :
    buildAux p s (fuel + 1) k t =
      buildAux p s fuel (k + 1)
        (addChildAt (nearestNeighbor t (s k)).1
          (extendState (s k) (nearestNeighbor t (s k)).2.state p.stepSize) t) := by
  rw [buildAux_succ, if_neg (by simp [hcol]), if_neg (by simp [hcomp])]

/-! ### Invariants of the planner loop -/

/-- Every state of every tree reachable by the loop passes the collision
check, provided every state of the starting tree does: extensions only ever
insert candidates the check cleared. -/
theorem buildAux_collisionFree {n : ℕ} (p : AdaRRTParams n)
    (s : ℕ → Fin n → ℝ) :
    ∀ (fuel k : ℕ) (t : Node n),
      (∀ st, StateIn st t → checkForCollision p.oracle st = false) →
      ∀ st, StateIn st (buildAux p s fuel k t).2 →
        checkForCollision p.oracle st = false := by
  intro fuel
  induction fuel with
  | zero =>
    intro k t ht st hst
    rw [buildAux_zero] at hst
    exact ht st hst
  | succ fuel ih =>
    intro k t ht st hst
    cases hcol : checkForCollision p.oracle
        (extendState (s k) (nearestNeighbor t (s k)).2.state p.stepSize) with
    | true =>
      rw [buildAux_step_rejected p s fuel k t hcol] at hst
      exact ih (k + 1) t ht st hst
    | false =>
      have hnew : ∀ st', StateIn st' (addChildAt (nearestNeighbor t (s k)).1
          (extendState (s k) (nearestNeighbor t (s k)).2.state p.stepSize) t) →
          checkForCollision p.oracle st' = false := by
        intro st' hst'
        rcases StateIn_addChildAt _ _ _ _ hst' with h | rfl
        · exact ht st' h
        · exact hcol
      cases hcomp : checkForCompletion p.goal p.goalPrecision
          (extendState (s k) (nearestNeighbor t (s k)).2.state p.stepSize) with
      | true =>
        rw [buildAux_step_success p s fuel k t hcol hcomp] at hst
        exact hnew st hst
      | false =>
        rw [buildAux_step_grow p s fuel k t hcol hcomp] at hst
        exact ih (k + 1) _ hnew st hst

/-- The loop consumes one sample per iteration: its result only depends on
the samples of the at most `fuel` iterations it performs. -/
theorem buildAux_agree {n : ℕ} (p : AdaRRTParams n) (s s' : ℕ → Fin n → ℝ) :
    ∀ (fuel k : ℕ) (t : Node n), (∀ j, k ≤ j → j < k + fuel → s j = s' j) →
      buildAux p s fuel k t = buildAux p s' fuel k t := by
  intro fuel
  induction fuel with
  | zero => intro k t _; rw [buildAux_zero, buildAux_zero]
  | succ fuel ih =>
    intro k t hagree
    have h0 : s k = s' k := hagree k (le_refl k) (by omega)
    have hrec : ∀ t' : Node n,
        buildAux p s fuel (k + 1) t' = buildAux p s' fuel (k + 1) t' :=
      fun t' => ih (k + 1) t' fun j hj1 hj2 => hagree j (by omega) (by omega)
    rw [buildAux_succ, buildAux_succ, ← h0]
    simp only [hrec]

/-- The root is preserved and the distance invariant maintained; when the
loop succeeds, the returned path is the reversed parent walk to the freshly
inserted terminal node, consists of real states which start at the planner's
start state and end at the terminal's state within goal precision of the
goal, and consecutive states are exactly `stepSize` apart. -/
theorem buildAux_success_spec {n : ℕ} (p : AdaRRTParams n)
    (s : ℕ → Fin n → ℝ) (hstep : 0 ≤ p.stepSize) :
    ∀ (fuel k : ℕ) (t : Node n),
      t.state = some p.start → StepOK p.stepSize t →
      ∀ path, (buildAux p s fuel k t).1 = some path →
      ∃ (q : List ℕ) (term : Node n) (w : Fin n → ℝ)
        (vs : List (Fin n → ℝ)),
        path = tracePathFromStart q (buildAux p s fuel k t).2 ∧
        nodeAt q (buildAux p s fuel k t).2 = some term ∧
        term.state = some w ∧
        edist w p.goal < p.goalPrecision ∧
        path = vs.map some ∧
        vs.head? = some p.start ∧
        vs.getLast? = some w ∧
        List.Chain' (fun a b => edist a b = p.stepSize) vs := by
  intro fuel
  induction fuel with
  | zero =>
    intro k t _ _ path h
    rw [buildAux_zero] at h
    exact absurd h (by simp)
  | succ fuel ih =>
    intro k t hroot hok path h
    cases hcol : checkForCollision p.oracle
        (extendState (s k) (nearestNeighbor t (s k)).2.state p.stepSize) with
    | true =>
      rw [buildAux_step_rejected p s fuel k t hcol] at h ⊢
      exact ih (k + 1) t hroot hok path h
    | false =>
      have hvalid : nodeAt (nearestNeighbor t (s k)).1 t =
          some (nearestNeighbor t (s k)).2 :=
        bfsPairs_valid t _ (nearestNeighbor_mem t (s k))
      have hok2 : StepOK p.stepSize (addChildAt (nearestNeighbor t (s k)).1
          (extendState (s k) (nearestNeighbor t (s k)).2.state p.stepSize) t) := by
        refine stepOK_addChildAt _ _ t _ hok hvalid ?_
        intro w hw
        obtain ⟨v, hv, _, _, hd⟩ := extendState_of_eq_some hstep hw
        exact ⟨v, hv, hd⟩
      have hroot2 : (addChildAt (nearestNeighbor t (s k)).1
          (extendState (s k) (nearestNeighbor t (s k)).2.state p.stepSize)
            t).state = some p.start := by
        rw [state_addChildAt]
        exact hroot
      cases hcomp : checkForCompletion p.goal p.goalPrecision
          (extendState (s k) (nearestNeighbor t (s k)).2.state p.stepSize) with
      | false =>
        rw [buildAux_step_grow p s fuel k t hcol hcomp] at h ⊢
        exact ih (k + 1) _ hroot2 hok2 path h
      | true =>
        rw [buildAux_step_success p s fuel k t hcol hcomp] at h ⊢
        obtain ⟨w, hwc, hwgoal⟩ := checkForCompletion_elim hcomp
        have hterm : nodeAt ((nearestNeighbor t (s k)).1 ++
            [(nearestNeighbor t (s k)).2.children.length])
            (addChildAt (nearestNeighbor t (s k)).1
              (extendState (s k) (nearestNeighbor t (s k)).2.state p.stepSize)
              t) =
            some (.mk (extendState (s k) (nearestNeighbor t (s k)).2.state
              p.stepSize) []) :=
          nodeAt_addChildAt_new _ _ t _ hvalid
        have htermst : Node.state (Node.mk (extendState (s k)
            (nearestNeighbor t (s k)).2.state p.stepSize)
            ([] : List (Node n))) = some w := hwc
        obtain ⟨vs, h0, hsd, hhd, ht2st, hlast, hchain⟩ :=
          statesDown_chain p.stepSize _ _ _ w hok2 hterm htermst
        have hpath : path = tracePathFromStart
            ((nearestNeighbor t (s k)).1 ++
              [(nearestNeighbor t (s k)).2.children.length])
            (addChildAt (nearestNeighbor t (s k)).1
              (extendState (s k) (nearestNeighbor t (s k)).2.state p.stepSize)
              t) :=
          (Option.some.inj h).symm
        have h0eq : h0 = p.start := by
          rw [ht2st] at hroot2
          exact Option.some.inj hroot2
        refine ⟨_, _, w, vs, hpath, hterm, htermst, hwgoal, ?_, ?_, hlast,
          hchain⟩
        · rw [hpath, tracePathFromStart_eq_statesDown]
          exact hsd
        · rw [← h0eq]
          exact hhd

/-- A tree that is just a root is its own nearest neighbor for any
sample. -/
theorem nearestNeighbor_leaf {n : ℕ} (st : FState n) (sample : Fin n → ℝ) :
    nearestNeighbor (.mk st []) sample = ([], .mk st []) := by
  rw [nearestNeighbor_eq,
    show childPairs ([] : List ℕ) 0 ([] : List (Node n)) = [] from rfl,
    bfsAux_nil]
  rfl

/-- When the first sample differs from the start, no oracle is configured
and the first candidate passes the completion check, `build` succeeds on
iteration 0 with a two-element path. -/
theorem buildAux_first_success {n : ℕ} (p : AdaRRTParams n)
    (s : ℕ → Fin n → ℝ) (hor : p.oracle = none) (hit : 1 ≤ p.maxIter)
    (hcomp : checkForCompletion p.goal p.goalPrecision
      (extendState (s 0) (some p.start) p.stepSize) = true) :
    build p s = some [some p.start,
      extendState (s 0) (some p.start) p.stepSize] := by
  obtain ⟨m, hm⟩ : ∃ m, p.maxIter = m + 1 := ⟨p.maxIter - 1, by omega⟩
  unfold build
  rw [hm]
  have hnn : nearestNeighbor (Node.mk (some p.start) ([] : List (Node n)))
      (s 0) = ([], .mk (some p.start) []) := nearestNeighbor_leaf _ _
  have hnb2 : (nearestNeighbor (Node.mk (some p.start) ([] : List (Node n)))
      (s 0)).2.state = some p.start := by
    rw [hnn]
    rfl
  have hcol : checkForCollision p.oracle (extendState (s 0)
      (nearestNeighbor (Node.mk (some p.start) ([] : List (Node n)))
        (s 0)).2.state p.stepSize) = false := by
    rw [hor]
    exact checkForCollision_noOracle _
  have hcomp' : checkForCompletion p.goal p.goalPrecision (extendState (s 0)
      (nearestNeighbor (Node.mk (some p.start) ([] : List (Node n)))
        (s 0)).2.state p.stepSize) = true := by
    rw [hnb2]
    exact hcomp
  rw [buildAux_step_success p s m 0 _ hcol hcomp']
  simp only [hnn, hnb2]
  rfl

/-- The parent-distance invariant is preserved by every tree the loop can
reach. -/
theorem buildAux_stepOK {n : ℕ} (p : AdaRRTParams n) (s : ℕ → Fin n → ℝ)
    (hstep : 0 ≤ p.stepSize) :
    ∀ (fuel k : ℕ) (t : Node n), StepOK p.stepSize t →
      StepOK p.stepSize (buildAux p s fuel k t).2 := by
  intro fuel
  induction fuel with
  | zero =>
    intro k t hok
    rw [buildAux_zero]
    exact hok
  | succ fuel ih =>
    intro k t hok
    cases hcol : checkForCollision p.oracle
        (extendState (s k) (nearestNeighbor t (s k)).2.state p.stepSize) with
    | true =>
      rw [buildAux_step_rejected p s fuel k t hcol]
      exact ih (k + 1) t hok
    | false =>
      have hok2 : StepOK p.stepSize (addChildAt (nearestNeighbor t (s k)).1
          (extendState (s k) (nearestNeighbor t (s k)).2.state p.stepSize)
          t) := by
        refine stepOK_addChildAt _ _ t _ hok
          (bfsPairs_valid t _ (nearestNeighbor_mem t (s k))) ?_
        intro w hw
        obtain ⟨v, hv, _, _, hd⟩ := extendState_of_eq_some hstep hw
        exact ⟨v, hv, hd⟩
      cases hcomp : checkForCompletion p.goal p.goalPrecision
          (extendState (s k) (nearestNeighbor t (s k)).2.state p.stepSize) with
      | true =>
        rw [buildAux_step_success p s fuel k t hcol hcomp]
        exact hok2
      | false =>
        rw [buildAux_step_grow p s fuel k t hcol hcomp]
        exact ih (k + 1) _ hok2

/-- The addresses visited by the parent walk (the prefixes of the terminal's
address) are pairwise distinct: the path repeats no node. -/
theorem prefixes_nodup (q : List ℕ) :
    ((List.range (q.length + 1)).map fun j => List.take j q).Nodup := by
  refine List.Nodup.map_on ?_ (List.nodup_range _)
  intro x hx y hy hxy
  have hx' : x ≤ q.length := by
    have := List.mem_range.1 hx
    omega
  have hy' : y ≤ q.length := by
    have := List.mem_range.1 hy
    omega
  have h1 : (List.take x q).length = x := by
    rw [List.length_take]
    omega
  have h2 : (List.take y q).length = y := by
    rw [List.length_take]
    omega
  rw [← h1, ← h2, hxy]

/-! ### Concrete evaluations -/

theorem o1_ne_z1 : o1 ≠ z1 := by
  intro h
  have h0 := congrFun h 0
  simp [o1, z1] at h0

theorem o1_sub_z1 : o1 - z1 = o1 := by
  funext i
  simp [o1, z1]

theorem enorm_o1 : enorm o1 = 1 := by
  unfold enorm
  rw [show ∑ i, o1 i ^ 2 = 1 by simp [o1]]
  exact Real.sqrt_one

theorem extend_conc : extendState o1 (some z1) ((1 : ℝ) / 4) = some w1 := by
  rw [extendState_some o1 z1 _ o1_ne_z1, o1_sub_z1, enorm_o1]
  have h : z1 + ((1 : ℝ) / 4) • ((1 : ℝ)⁻¹ • o1) = w1 := by
    funext i
    simp [z1, o1, w1]
  rw [h]

theorem edist_w1_z1 : edist w1 z1 = 1 / 4 := by
  unfold edist
  rw [show w1 - z1 = w1 by funext i; simp [w1, z1]]
  unfold enorm
  rw [show ∑ i, w1 i ^ 2 = ((1 : ℝ) / 4) ^ 2 by simp [w1]]
  exact Real.sqrt_sq (by norm_num)

theorem build_concrete : build pC sC = some [some z1, some w1] := by
  have hcomp : checkForCompletion pC.goal pC.goalPrecision
      (extendState (sC 0) (some pC.start) pC.stepSize) = true := by
    show checkForCompletion z1 1 (extendState o1 (some z1) ((1 : ℝ) / 4)) = true
    rw [extend_conc]
    refine (checkForCompletion_some z1 1 w1).2 ?_
    rw [edist_w1_z1]
    norm_num
  have h := buildAux_first_success pC sC rfl (le_refl 1) hcomp
  have h2 : extendState (sC 0) (some pC.start) pC.stepSize = some w1 :=
    extend_conc
  rw [h, h2]
  rfl

theorem bfsPairs_tPair :
    bfsPairs tPair = [([], tPair), ([0], .mk (some o1) [])] := by
  rw [show tPair = Node.mk (some z1) [Node.mk (some o1) []] from rfl,
    bfsPairs_def,
    show childPairs ([] : List ℕ) 0 [Node.mk (some o1) ([] : List (Node 1))] =
      [([0], Node.mk (some o1) [])] from rfl,
    bfsAux_cons]
  rw [show ([] : List (List ℕ × Node 1)) ++
      childPairs [0] 0 ([] : List (Node 1)) = [] from rfl, bfsAux_nil]

/-! ### The claims -/

/-- C1: every path returned by `build` is the reversed parent-reference
walk (`tracePathFromStart`) from the freshly inserted terminal node of the
final tree; it consists of real states, starts with the exact start state,
ends with the terminal node's state, which lies strictly within
`goal_precision` of the goal, repeats no node (the visited addresses — the
prefixes of the terminal's address — are pairwise distinct), and each
consecutive pair of states is Euclidean distance `step_size` apart (vacuous
for a single-node path). -/
theorem adaRRT_build_path_valid {n : ℕ} (p : AdaRRTParams n)
    (s : ℕ → Fin n → ℝ) (path : List (FState n)) (hstep : 0 ≤ p.stepSize)
    (hbuild : build p s = some path) :
    ∃ (q : List ℕ) (term : Node n) (w : Fin n → ℝ) (vs : List (Fin n → ℝ)),
      path = tracePathFromStart q (finalTree p s) ∧
      nodeAt q (finalTree p s) = some term ∧
      term.state = some w ∧
      edist w p.goal < p.goalPrecision ∧
      path = vs.map some ∧
      vs.head? = some p.start ∧
      vs.getLast? = some w ∧
      List.Chain' (fun a b => edist a b = p.stepSize) vs ∧
      ((List.range (q.length + 1)).map fun j => List.take j q).Nodup := by
  have hroot : StepOK p.stepSize (Node.mk (some p.start) ([] : List (Node n))) :=
    StepOK.mk _ [] (by simp) (by simp)
  obtain ⟨q, term, w, vs, h1, h2, h3, h4, h5, h6, h7, h8⟩ :=
    buildAux_success_spec p s hstep p.maxIter 0 (.mk (some p.start) []) rfl
      hroot path hbuild
  exact ⟨q, term, w, vs, h1, h2, h3, h4, h5, h6, h7, h8, prefixes_nodup q⟩

/-- Witness for C1 at a concrete successful run. -/
theorem adaRRT_build_path_valid_witness :
    (0 : ℝ) ≤ pC.stepSize ∧ build pC sC = some [some z1, some w1] ∧
    ∃ (q : List ℕ) (term : Node 1) (w : Fin 1 → ℝ) (vs : List (Fin 1 → ℝ)),
      [some z1, some w1] = tracePathFromStart q (finalTree pC sC) ∧
      nodeAt q (finalTree pC sC) = some term ∧
      term.state = some w ∧
      edist w pC.goal < pC.goalPrecision ∧
      [some z1, some w1] = vs.map some ∧
      vs.head? = some pC.start ∧
      vs.getLast? = some w ∧
      List.Chain' (fun a b => edist a b = pC.stepSize) vs ∧
      ((List.range (q.length + 1)).map fun j => List.take j q).Nodup :=
  ⟨by show (0 : ℝ) ≤ 1 / 4; norm_num, build_concrete,
    adaRRT_build_path_valid pC sC [some z1, some w1]
      (by show (0 : ℝ) ≤ 1 / 4; norm_num) build_concrete⟩

/-- C2: on a tree whose node states are all real vectors, the node returned
by `_get_nearest_neighbor` belongs to the breadth-first enumeration of the
start tree (the standalone goal node is not part of it), its Euclidean
distance to the sample is at most that of every node of the tree, every
node strictly before it in breadth-first order is strictly farther — so
among equidistant nodes the first one encountered wins — and the traversal
visits every node of the tree. -/
theorem adaRRT_nearest_neighbor_spec {n : ℕ} (t : Node n)
    (sample : Fin n → ℝ)
    (hreal : ∀ pr ∈ bfsPairs t, Option.isSome (Node.state pr.2)) :
    ∃ rv : Fin n → ℝ,
      (nearestNeighbor t sample).2.state = some rv ∧
      nearestNeighbor t sample ∈ bfsPairs t ∧
      (∀ pr ∈ bfsPairs t, ∀ w : Fin n → ℝ, Node.state pr.2 = some w →
        edist rv sample ≤ edist w sample) ∧
      (∃ l1 l2, bfsPairs t = l1 ++ nearestNeighbor t sample :: l2 ∧
        ∀ pr ∈ l1, ∀ w : Fin n → ℝ, Node.state pr.2 = some w →
          edist rv sample < edist w sample) ∧
      (∀ st, StateIn st t → ∃ pr, pr ∈ bfsPairs t ∧ Node.state pr.2 = st) := by
  cases t with
  | mk s0 cs =>
    have hmem := nearestNeighbor_mem (Node.mk s0 cs) sample
    obtain ⟨rv, hrv⟩ := Option.isSome_iff_exists.1 (hreal _ hmem)
    have hb : bfsPairs (Node.mk s0 cs) =
        ([], Node.mk s0 cs) :: bfsAux (childPairs [] 0 cs) := bfsPairs_def s0 cs
    have hnn : nearestNeighbor (Node.mk s0 cs) sample =
        firstMinBy (fun pr => distKey sample pr.2.state) ([], .mk s0 cs)
          (bfsAux (childPairs [] 0 cs)) := nearestNeighbor_eq s0 cs sample
    refine ⟨rv, hrv, hmem, ?_, ?_, fun st h => bfsPairs_complete _ st h⟩
    · intro pr hpr w hw
      have hmin := firstMinBy_min (fun pr => distKey sample pr.2.state)
        (bfsAux (childPairs [] 0 cs)) ([], .mk s0 cs) pr
        (by rw [← hb]; exact hpr)
      rw [← hnn] at hmin
      have hmin' : oltB (distKey sample pr.2.state)
          (distKey sample (nearestNeighbor (Node.mk s0 cs) sample).2.state)
          = false := hmin
      rw [hw, hrv] at hmin'
      rw [show distKey sample (some w) = some (edist w sample) from rfl,
        show distKey sample (some rv) = some (edist rv sample) from rfl,
        oltB_some_some, decide_eq_false_iff_not] at hmin'
      exact not_lt.1 hmin'
    · have hsome : ∀ x ∈ ([], Node.mk s0 cs) :: bfsAux (childPairs [] 0 cs),
          Option.isSome ((fun pr => distKey sample pr.2.state) x) := by
        intro x hx
        show Option.isSome (distKey sample x.2.state)
        rw [distKey_isSome]
        exact hreal x (by rw [hb]; exact hx)
      obtain ⟨l1, l2, hsplit, hl1⟩ := firstMinBy_split
        (fun pr => distKey sample pr.2.state)
        (bfsAux (childPairs [] 0 cs)) ([], .mk s0 cs) hsome
      refine ⟨l1, l2, by rw [hb, hsplit, ← hnn], ?_⟩
      intro pr hpr w hw
      have h1 := hl1 pr hpr
      rw [← hnn] at h1
      have h1' : oltB
          (distKey sample (nearestNeighbor (Node.mk s0 cs) sample).2.state)
          (distKey sample pr.2.state) = true := h1
      rw [hrv, hw] at h1'
      rw [show distKey sample (some rv) = some (edist rv sample) from rfl,
        show distKey sample (some w) = some (edist w sample) from rfl,
        oltB_some_some, decide_eq_true_eq] at h1'
      exact h1'

/-- Witness for C2 on a concrete two-node tree. -/
theorem adaRRT_nearest_neighbor_spec_witness :
    ∃ rv : Fin 1 → ℝ,
      (nearestNeighbor tPair o1).2.state = some rv ∧
      nearestNeighbor tPair o1 ∈ bfsPairs tPair ∧
      (∀ pr ∈ bfsPairs tPair, ∀ w : Fin 1 → ℝ, Node.state pr.2 = some w →
        edist rv o1 ≤ edist w o1) ∧
      (∃ l1 l2, bfsPairs tPair = l1 ++ nearestNeighbor tPair o1 :: l2 ∧
        ∀ pr ∈ l1, ∀ w : Fin 1 → ℝ, Node.state pr.2 = some w →
          edist rv o1 < edist w o1) ∧
      (∀ st, StateIn st tPair →
        ∃ pr, pr ∈ bfsPairs tPair ∧ Node.state pr.2 = st) :=
  adaRRT_nearest_neighbor_spec tPair o1 (by
    intro pr hpr
    rw [bfsPairs_tPair] at hpr
    rcases List.mem_cons.1 hpr with rfl | hpr'
    · rfl
    · have h : pr = ([0], Node.mk (some o1) []) := by simpa using hpr'
      rw [h]
      rfl)

/-- C3 counterexample: with no oracle, a sample that coincides with the
nearest neighbor's state does create a node — the candidate is the all-NaN
array, the collision check (no oracle) clears it, and the tree gains an
extra node — contradicting the claim that the iteration leaves the tree
unchanged. -/
theorem adaRRT_degenerate_cex :
    buildAux pDeg sDeg 1 0 (.mk (some z1) []) =
      (none, .mk (some z1) [.mk none []]) ∧
    Node.mk (some z1) [Node.mk none ([] : List (Node 1))] ≠
      Node.mk (some z1) [] ∧
    build pDeg sDeg = none := by
  have hnb2 : (nearestNeighbor (Node.mk (some z1) ([] : List (Node 1)))
      (sDeg 0)).2.state = some z1 := by
    rw [nearestNeighbor_leaf]
    rfl
  have hdeg : extendState (sDeg 0)
      (nearestNeighbor (Node.mk (some z1) ([] : List (Node 1)))
        (sDeg 0)).2.state pDeg.stepSize = none := by
    rw [hnb2]
    exact extendState_degenerate z1 _
  have hcol : checkForCollision pDeg.oracle (extendState (sDeg 0)
      (nearestNeighbor (Node.mk (some z1) ([] : List (Node 1)))
        (sDeg 0)).2.state pDeg.stepSize) = false := by
    rw [hdeg]
    rfl
  have hcomp : checkForCompletion pDeg.goal pDeg.goalPrecision
      (extendState (sDeg 0)
        (nearestNeighbor (Node.mk (some z1) ([] : List (Node 1)))
          (sDeg 0)).2.state pDeg.stepSize) = false := by
    rw [hdeg]
    exact checkForCompletion_nan _ _
  have hstep := buildAux_step_grow pDeg sDeg 0 0
    (.mk (some z1) []) hcol hcomp
  refine ⟨?_, by simp, ?_⟩
  · rw [hstep, buildAux_zero, hdeg, nearestNeighbor_leaf]
    rfl
  · show (buildAux pDeg sDeg 1 0 (.mk (some z1) [])).1 = none
    rw [hstep, buildAux_zero]

/-- C3 amended: when the sample coincides exactly with the nearest
neighbor's (real) state, the extension does not crash but does not fail
either: the candidate is the all-NaN array (`0/0` in numpy, modelled
`none`), the collision check with no oracle clears it, a childless node
with the NaN state is appended below the neighbor — so the tree does
change — and the NaN node can never satisfy the completion check, so the
iteration continues. -/
theorem adaRRT_degenerate_sample {n : ℕ} (t : Node n) (sample : Fin n → ℝ)
    (stepSize : ℝ) (goal : Fin n → ℝ) (prec : ℝ)
    (h : (nearestNeighbor t sample).2.state = some sample) :
    extendState sample (nearestNeighbor t sample).2.state stepSize = none ∧
    checkForCollision (none : Option (FState n → Bool))
      (extendState sample (nearestNeighbor t sample).2.state stepSize)
      = false ∧
    checkForCompletion goal prec
      (extendState sample (nearestNeighbor t sample).2.state stepSize)
      = false ∧
    nodeAt ((nearestNeighbor t sample).1 ++
        [(nearestNeighbor t sample).2.children.length])
      (addChildAt (nearestNeighbor t sample).1
        (extendState sample (nearestNeighbor t sample).2.state stepSize) t)
      = some (.mk none []) ∧
    addChildAt (nearestNeighbor t sample).1
      (extendState sample (nearestNeighbor t sample).2.state stepSize) t
      ≠ t := by
  have hdeg : extendState sample (nearestNeighbor t sample).2.state stepSize
      = none := by
    rw [h]
    exact extendState_degenerate _ _
  have hvalid : nodeAt (nearestNeighbor t sample).1 t =
      some (nearestNeighbor t sample).2 :=
    bfsPairs_valid t _ (nearestNeighbor_mem t sample)
  refine ⟨hdeg, by rw [hdeg]; rfl, by rw [hdeg]; exact checkForCompletion_nan _ _,
    ?_, ?_⟩
  · rw [hdeg]
    exact nodeAt_addChildAt_new _ _ t _ hvalid
  · intro heq
    have h1 := nodeAt_addChildAt_new (nearestNeighbor t sample).1
      (extendState sample (nearestNeighbor t sample).2.state stepSize) t _
      hvalid
    rw [heq, nodeAt_new_none _ t _ hvalid] at h1
    exact absurd h1 (by simp)

/-- Witness for C3's amended statement on a concrete one-node tree. -/
theorem adaRRT_degenerate_sample_witness :
    extendState z1
      (nearestNeighbor (Node.mk (some z1) ([] : List (Node 1))) z1).2.state
      ((1 : ℝ) / 4) = none :=
  (adaRRT_degenerate_sample (.mk (some z1) []) z1 ((1 : ℝ) / 4) o1
    ((1 : ℝ) / 2) (by rw [nearestNeighbor_leaf]; rfl)).1

/-- C4: a successful extension from a real neighbor state with a
non-degenerate sample yields exactly
`neighbor + step_size * (sample - neighbor) / ‖sample - neighbor‖`, whose
Euclidean distance to the neighbor is exactly `step_size`; the invariant
that every (real) node sits at distance `step_size` from its parent is
preserved by every tree the loop reaches; and the candidate is not clamped
to the joint limits — a neighbor at a unit upper limit with a sample beyond
it produces a node strictly beyond the limit. -/
theorem adaRRT_extend_formula {n : ℕ} (sample v : Fin n → ℝ)
    (stepSize : ℝ) (hne : sample ≠ v) (hstep : 0 ≤ stepSize) :
    extendState sample (some v) stepSize =
      some (v + stepSize • ((enorm (sample - v))⁻¹ • (sample - v))) ∧
    edist v (v + stepSize • ((enorm (sample - v))⁻¹ • (sample - v)))
      = stepSize ∧
    (∀ (p : AdaRRTParams n) (s : ℕ → Fin n → ℝ) (fuel k : ℕ) (t : Node n),
      p.stepSize = stepSize → StepOK stepSize t →
      StepOK stepSize (buildAux p s fuel k t).2) ∧
    (∃ wex : Fin 1 → ℝ, extendState s2 (some o1) ((1 : ℝ) / 4) = some wex ∧
      o1 0 ≤ 1 ∧ 1 < wex 0) := by
  refine ⟨extendState_some sample v stepSize hne,
    edist_extend v (sample - v) stepSize (sub_ne_zero.2 hne) hstep, ?_, ?_⟩
  · intro p s fuel k t hps hok
    subst hps
    exact buildAux_stepOK p s hstep fuel k t hok
  · have hso : s2 - o1 = o1 := by
      funext i
      simp [s2, o1]
      norm_num
    have hne2 : s2 ≠ o1 := by
      intro h
      have h0 := congrFun h 0
      simp [s2, o1] at h0
    refine ⟨o1 + ((1 : ℝ) / 4) • ((enorm (s2 - o1))⁻¹ • (s2 - o1)),
      extendState_some s2 o1 _ hne2, by simp [o1], ?_⟩
    rw [hso, enorm_o1]
    simp [o1, Pi.add_apply, Pi.smul_apply]

/-- Witness for C4 at a concrete non-degenerate extension. -/
theorem adaRRT_extend_formula_witness :
    extendState o1 (some z1) ((1 : ℝ) / 4) =
      some (z1 + ((1 : ℝ) / 4) • ((enorm (o1 - z1))⁻¹ • (o1 - z1))) ∧
    edist z1 (z1 + ((1 : ℝ) / 4) • ((enorm (o1 - z1))⁻¹ • (o1 - z1)))
      = (1 : ℝ) / 4 :=
  ⟨(adaRRT_extend_formula o1 z1 ((1 : ℝ) / 4) o1_ne_z1 (by norm_num)).1,
   (adaRRT_extend_formula o1 z1 ((1 : ℝ) / 4) o1_ne_z1 (by norm_num)).2.1⟩

/-- C5 counterexample: the root is never collision-checked.  With an oracle
whose `is_satisfied` is always false, a full `build` run leaves the tree at
the root alone, and that reachable final tree contains a node — the root —
whose state the oracle reports as colliding. -/
theorem adaRRT_collision_cex :
    (buildAux pRej sC 1 0 (.mk (some z1) [])).2 = Node.mk (some z1) [] ∧
    build pRej sC = none ∧
    StateIn (some z1) (Node.mk (some z1) ([] : List (Node 1))) ∧
    checkForCollision pRej.oracle (some z1) = true := by
  have hcol : checkForCollision pRej.oracle (extendState (sC 0)
      (nearestNeighbor (Node.mk (some z1) ([] : List (Node 1)))
        (sC 0)).2.state pRej.stepSize) = true := rfl
  have hstep := buildAux_step_rejected pRej sC 0 0 (.mk (some z1) []) hcol
  refine ⟨?_, ?_, StateIn.here [], rfl⟩
  · rw [hstep, buildAux_zero]
  · show (buildAux pRej sC 1 0 (.mk (some z1) [])).1 = none
    rw [hstep, buildAux_zero]

/-- C5 amended: with no oracle every candidate is treated as
collision-free; an extension whose candidate the oracle rejects leaves the
tree unchanged and creates no node; and every node the planner itself adds
passed the collision check — so whenever every state of the starting tree
(in particular the never-checked root) is collision-free, every node of
every tree the loop reaches is collision-free. -/
theorem adaRRT_collision_invariant {n : ℕ} (p : AdaRRTParams n)
    (s : ℕ → Fin n → ℝ) :
    (p.oracle = none → ∀ st : FState n, checkForCollision p.oracle st = false) ∧
    (∀ (fuel k : ℕ) (t : Node n),
      checkForCollision p.oracle
        (extendState (s k) (nearestNeighbor t (s k)).2.state p.stepSize)
        = true →
      buildAux p s (fuel + 1) k t = buildAux p s fuel (k + 1) t) ∧
    (∀ (fuel k : ℕ) (t : Node n),
      (∀ st, StateIn st t → checkForCollision p.oracle st = false) →
      ∀ st, StateIn st (buildAux p s fuel k t).2 →
        checkForCollision p.oracle st = false) := by
  refine ⟨?_, ?_, ?_⟩
  · intro h st
    rw [h]
    exact checkForCollision_noOracle st
  · exact fun fuel k t => buildAux_step_rejected p s fuel k t
  · exact buildAux_collisionFree p s

/-- Witness for C5's amended statement: with no oracle configured, the
planner treats any state as collision-free. -/
theorem adaRRT_collision_invariant_witness :
    checkForCollision pC.oracle (some z1) = false :=
  (adaRRT_collision_invariant pC sC).1 rfl (some z1)

/-- C6: `build` halts after at most `max_iter` iterations — its outcome
depends only on the first `max_iter` samples — and yields either a path or
the explicit "no path found" result `none`, which callers can distinguish
from a crash (the function is total). -/
theorem adaRRT_build_halts {n : ℕ} (p : AdaRRTParams n)
    (s s' : ℕ → Fin n → ℝ) (h : ∀ k, k < p.maxIter → s k = s' k) :
    build p s = build p s' ∧
    (build p s = none ∨ ∃ path, build p s = some path) := by
  constructor
  · have hagree := buildAux_agree p s s' p.maxIter 0 (.mk (some p.start) [])
      (fun j hj1 hj2 => h j (by omega))
    unfold build
    rw [hagree]
  · cases hb : build p s with
    | none => exact Or.inl rfl
    | some path => exact Or.inr ⟨path, rfl⟩

/-- Witness for C6 at a concrete planner and stream. -/
theorem adaRRT_build_halts_witness :
    build pC sC = build pC sC ∧
    (build pC sC = none ∨ ∃ path, build pC sC = some path) :=
  adaRRT_build_halts pC sC sC fun _ _ => rfl

/-- C7: `_check_for_completion` returns true on a (real) newly created
state exactly when its Euclidean distance to the goal state is strictly
less than `goal_precision`; no other criterion enters. -/
theorem adaRRT_completion_iff {n : ℕ} (goal : Fin n → ℝ) (prec : ℝ)
    (v : Fin n → ℝ) :
    checkForCompletion goal prec (some v) = true ↔ edist v goal < prec :=
  checkForCompletion_some goal prec v

/-- C8: `__init__` performs no validation whatsoever — a construction with
mismatched start/goal dimensions, a negative step size and a negative
iteration count is accepted and simply stores the malformed values. -/
theorem adaRRT_init_no_validation :
    adaRRT_init [0] [0, 1] .pynone .pynone false (-1) 1 (-5) =
      .ok { startState := [0]
            goalState := [0, 1]
            jointLowerLimits := defaultLowerLimits
            jointUpperLimits := defaultUpperLimits
            hasCollisionConstraint := false
            stepSize := -1
            goalPrecision := 1
            maxIter := -5 } := rfl

/-- C9 counterexample: with goal equal to start, `build` does not return
the single-element path `[start]`; the root is never checked against goal
precision, and the first successful extension returns a two-element
path. -/
theorem adaRRT_goal_eq_start_cex :
    pC.goal = pC.start ∧ build pC sC = some [some z1, some w1] ∧
    some [some z1, some w1] ≠
      some ([some pC.start] : List (FState 1)) := by
  refine ⟨rfl, build_concrete, ?_⟩
  simp

/-- C9 amended: when the goal equals the start state, the root itself is
never checked against goal precision; instead, iteration 0's first
successful extension trivially satisfies the completion check (its distance
to the goal is `step_size < goal_precision`), so `build` returns the
two-element path from the start state to that first new node. -/
theorem adaRRT_goal_eq_start {n : ℕ} (p : AdaRRTParams n)
    (s : ℕ → Fin n → ℝ) (hg : p.goal = p.start) (hor : p.oracle = none)
    (h0 : 0 ≤ p.stepSize) (hlt : p.stepSize < p.goalPrecision)
    (hne : s 0 ≠ p.start) (hit : 1 ≤ p.maxIter) :
    build p s = some [some p.start, some (p.start +
      p.stepSize • ((enorm (s 0 - p.start))⁻¹ • (s 0 - p.start)))] := by
  have hext := extendState_some (s 0) p.start p.stepSize hne
  have hcomp : checkForCompletion p.goal p.goalPrecision
      (extendState (s 0) (some p.start) p.stepSize) = true := by
    rw [hext]
    refine (checkForCompletion_some _ _ _).2 ?_
    rw [hg, edist_comm,
      edist_extend p.start (s 0 - p.start) p.stepSize (sub_ne_zero.2 hne) h0]
    exact hlt
  have h := buildAux_first_success p s hor hit hcomp
  rw [h, hext]

/-- Witness for C9's amended statement at a concrete planner. -/
theorem adaRRT_goal_eq_start_witness :
    build pC sC = some [some pC.start, some (pC.start +
      pC.stepSize • ((enorm (sC 0 - pC.start))⁻¹ • (sC 0 - pC.start)))] :=
  adaRRT_goal_eq_start pC sC rfl rfl
    (by show (0 : ℝ) ≤ 1 / 4; norm_num)
    (by show (1 : ℝ) / 4 < 1; norm_num) o1_ne_z1 (le_refl 1)

/-- C10: `__init__` substitutes the class-default joint limits exactly when
the supplied argument is falsy (`None`, an empty Python list, silently), a
truthy Python list is kept as supplied, and because `x or default`
evaluates the truth value of `x`, construction raises (`Except.error`)
whenever either bounds argument is a numpy array of more than one
element. -/
theorem adaRRT_init_truthiness :
    (∀ (a b : List ℚ) (hc : Bool) (st pr : ℚ) (mi : ℤ) (up : PyLimits)
      (r : AdaRRTInit), adaRRT_init a b .pynone up hc st pr mi = .ok r →
        r.jointLowerLimits = defaultLowerLimits) ∧
    (∀ (a b : List ℚ) (hc : Bool) (st pr : ℚ) (mi : ℤ) (up : PyLimits)
      (r : AdaRRTInit), adaRRT_init a b (.pylist []) up hc st pr mi = .ok r →
        r.jointLowerLimits = defaultLowerLimits) ∧
    (∀ (a b : List ℚ) (hc : Bool) (st pr : ℚ) (mi : ℤ) (lo : PyLimits)
      (r : AdaRRTInit), adaRRT_init a b lo .pynone hc st pr mi = .ok r →
        r.jointUpperLimits = defaultUpperLimits) ∧
    (∀ (a b : List ℚ) (hc : Bool) (st pr : ℚ) (mi : ℤ) (lo : PyLimits)
      (r : AdaRRTInit), adaRRT_init a b lo (.pylist []) hc st pr mi = .ok r →
        r.jointUpperLimits = defaultUpperLimits) ∧
    (∀ (a b : List ℚ) (hc : Bool) (st pr : ℚ) (mi : ℤ) (up : PyLimits)
      (xs : List ℚ) (r : AdaRRTInit), xs ≠ [] →
        adaRRT_init a b (.pylist xs) up hc st pr mi = .ok r →
        r.jointLowerLimits = xs) ∧
    (∀ (a b : List ℚ) (hc : Bool) (st pr : ℚ) (mi : ℤ) (up : PyLimits)
      (xs : List ℚ), 2 ≤ xs.length →
        adaRRT_init a b (.nparray xs) up hc st pr mi = .error ()) ∧
    (∀ (a b : List ℚ) (hc : Bool) (st pr : ℚ) (mi : ℤ) (lo : PyLimits)
      (xs : List ℚ), 2 ≤ xs.length →
        adaRRT_init a b lo (.nparray xs) hc st pr mi = .error ()) := by
  have hlow : ∀ (a b : List ℚ) (hc : Bool) (st pr : ℚ) (mi : ℤ)
      (lo up : PyLimits) (lov : List ℚ), pyOr lo defaultLowerLimits = .ok lov →
      ∀ r : AdaRRTInit, adaRRT_init a b lo up hc st pr mi = .ok r →
        r.jointLowerLimits = lov := by
    intro a b hc st pr mi lo up lov hlo r hr
    unfold adaRRT_init at hr
    rw [hlo] at hr
    cases hup : pyOr up defaultUpperLimits with
    | error e => rw [hup] at hr; simp at hr
    | ok hi =>
      rw [hup] at hr
      simp only [Except.ok.injEq] at hr
      rw [← hr]
  have hupp : ∀ (a b : List ℚ) (hc : Bool) (st pr : ℚ) (mi : ℤ)
      (lo up : PyLimits) (upv : List ℚ), pyOr up defaultUpperLimits = .ok upv →
      ∀ r : AdaRRTInit, adaRRT_init a b lo up hc st pr mi = .ok r →
        r.jointUpperLimits = upv := by
    intro a b hc st pr mi lo up upv hup r hr
    unfold adaRRT_init at hr
    cases hlo : pyOr lo defaultLowerLimits with
    | error e => rw [hlo] at hr; simp at hr
    | ok lov =>
      rw [hlo, hup] at hr
      simp only [Except.ok.injEq] at hr
      rw [← hr]
  have hnp : ∀ xs : List ℚ, 2 ≤ xs.length →
      ∀ d : List ℚ, pyOr (.nparray xs) d = .error () := by
    intro xs hxs d
    cases xs with
    | nil => simp at hxs
    | cons x xs1 =>
      cases xs1 with
      | nil => simp at hxs
      | cons y xs2 => rfl
  refine ⟨?_, ?_, ?_, ?_, ?_, ?_, ?_⟩
  · exact fun a b hc st pr mi up r hr =>
      hlow a b hc st pr mi .pynone up defaultLowerLimits rfl r hr
  · exact fun a b hc st pr mi up r hr =>
      hlow a b hc st pr mi (.pylist []) up defaultLowerLimits rfl r hr
  · exact fun a b hc st pr mi lo r hr =>
      hupp a b hc st pr mi lo .pynone defaultUpperLimits rfl r hr
  · exact fun a b hc st pr mi lo r hr =>
      hupp a b hc st pr mi lo (.pylist []) defaultUpperLimits rfl r hr
  · intro a b hc st pr mi up xs r hxs hr
    refine hlow a b hc st pr mi (.pylist xs) up xs ?_ r hr
    cases xs with
    | nil => exact absurd rfl hxs
    | cons x xs1 => rfl
  · intro a b hc st pr mi up xs hxs
    unfold adaRRT_init
    rw [hnp xs hxs]
  · intro a b hc st pr mi lo xs hxs
    unfold adaRRT_init
    cases hlo : pyOr lo defaultLowerLimits with
    | error e => cases e; rfl
    | ok lov => rw [hnp xs hxs]

/-- Witness for C10 at concrete arguments: a two-element numpy array raises,
and fully falsy limits substitute the class defaults. -/
theorem adaRRT_init_truthiness_witness :
    adaRRT_init [] [] (.nparray [1, 2]) .pynone false 1 1 1 = .error () ∧
    initDefaultsResult.jointLowerLimits = defaultLowerLimits :=
  ⟨adaRRT_init_truthiness.2.2.2.2.2.1 [] [] false 1 1 1 .pynone [1, 2]
      (by norm_num),
    adaRRT_init_truthiness.1 [] [] false 1 1 1 .pynone initDefaultsResult rfl⟩

end AdaRRT
